import Mathlib

/-!
Verification of the batch partial-failure resolver and queue-URL cache of the
aws-serverless-dataplatform repository.

The development shallowly embeds two Python modules:

* `sqs_utils/sqs/utils.py` (`get_url`): queue-ARN parsing and the memoizing
  `@cached(cache={\x7d})` wrapper, modelled as explicit state passing over an
  association-list cache together with a counter of underlying
  `get_queue_url` network calls.  The SQS service is an oracle
  `lookup : queue_name → account_id → Option url` (`none` models the
  `QueueDoesNotExist` exception).

* `sqs_utils/sqs/sqs_batch_handler.py` (`SqsBatchHandler`): the per-record
  processing loop (`__call__`, modelled as `invoke`) and the deletion pass
  (`resolve_records`).  Caller-supplied callables (the record processor and
  the failed-record hook) are oracle functions returning `Except` (an
  `Except.error` models a raised exception).  Logging has no effect on
  control flow or state in the source and is not modelled.  Python
  exceptions that the source catches are modelled by the `Option`/`Except`
  branches at the corresponding program points; in-place mutation of the
  event (`record['__failed'] = True`) is modelled by returning the
  post-state list of records.

The model records observation traces (processor invocations, hook
invocations, `delete_message` invocations) so that the call-counting claims
of the specification can be stated exactly.
-/

deriving instance DecidableEq for Except

namespace Sqs

/-! ## Queue-URL resolution (`sqs_utils/sqs/utils.py`) -/

/-- Splitting on a separator character, as Python `str.split` with a
one-character separator: splitting the empty string yields `[""]`, and every
occurrence of the separator opens a new group. -/
def splitChar (c : Char) : List Char → List (List Char)
  | [] => [[]]
  | x :: xs =>
      match splitChar c xs, decide (x = c) with
      | r, true => [] :: r
      | [], false => [[x]]
      | g :: gs, false => (x :: g) :: gs

/-- Embedding of ARN parsing in `get_url`:
`queue_name = str(queue_arn).split(':')[-1]` and
`account_id = str(queue_arn).split(':')[-2]`.  The input is a `str`, so the
`AttributeError` arm is unreachable; `[-1]` always succeeds because
`split(':')` returns at least one element; `[-2]` raises `IndexError`
(modelled as `none`) when there are fewer than two components. -/
def parseArn (queue_arn : String) : Option (String × String) :=
  match (splitChar ':' queue_arn.toList).reverse with
  | queue_name :: account_id :: _ =>
      some (String.mk queue_name, String.mk account_id)
  | _ => none

/-- The process-wide cache installed by `@cached(cache={\x7d})`, keyed by the raw
ARN string, together with a counter of underlying `get_queue_url` calls made
against the queue service. -/
structure UrlCache where
  entries : List (String × Option String)
  lookupCount : Nat
deriving DecidableEq, Repr

/-- The body of `get_url` without the memoizing wrapper: parse the ARN; on
`IndexError` log and return `None` (no network call); otherwise call
`get_queue_url` once, mapping `QueueDoesNotExist` to `None`.  Returns the
result together with the number of network calls made (0 or 1). -/
def get_url_body (lookup : String → String → Option String)
    (queue_arn : String) : Option String × Nat :=
  match parseArn queue_arn with
  | none => (none, 0)
  | some (queue_name, account_id) => (lookup queue_name account_id, 1)

/-- Embedding of `get_url` as wrapped by `cachetools.cached`: on a cache hit
return the cached value (even a cached `None`); on a miss run the body and
store whatever it returned — including `None` — under the raw ARN key. -/
def get_url (lookup : String → String → Option String) (queue_arn : String)
    (c : UrlCache) : Option String × UrlCache :=
  match c.entries.find? (fun p => p.1 == queue_arn) with
  | some p => (p.2, c)
  | none =>
      let r := get_url_body lookup queue_arn
      (r.1, ⟨c.entries ++ [(queue_arn, r.1)], c.lookupCount + r.2⟩)

/-! ## The batch handler (`sqs_utils/sqs/sqs_batch_handler.py`) -/

namespace SqsBatchHandler

/-- One record of `event['Records']`, as a dictionary: `get`-style accesses
on possibly missing keys are `Option` fields (`none` models a missing key,
so `record['k']` raises `KeyError` exactly on `none`).  `failed` is the
`'__failed'` key read by `r.get('__failed', False)`; `payload` stands for
all remaining keys, which the handler never touches. -/
structure Record (β : Type) where
  eventSource : Option String
  eventSourceArn : Option String
  receiptHandle : Option String
  body : Option String
  failed : Bool
  payload : β
deriving DecidableEq, Repr

/-- A value bound to the Python local `decoded_event`, or passed as the first
argument of the record processor: in pass-through mode the raw event, for a
queue-sourced record its JSON-decoded body, for any other record the record
itself. -/
inductive ProcArg (β γ : Type) where
  | rawEvent : β → ProcArg β γ
  | json : γ → ProcArg β γ
  | record : Record β → ProcArg β γ
deriving DecidableEq, Repr

/-- The Lambda event: either it has a `Records` list (batch mode), or the
`Records` key is absent or not a list (pass-through mode), in which case
only its opaque payload matters. -/
inductive Event (β γ : Type) where
  | other : β → Event β γ
  | batch : List (Record β) → Event β γ
deriving DecidableEq, Repr

/-- The caller-registered record processor (`on_record`): receives the
decoded event, the raw second argument and the accumulated prior results;
`Except.error` models a raised exception, `Except.ok none` a `None` return. -/
def Proc (α β γ : Type) : Type :=
  ProcArg β γ → ProcArg β γ → List α → Except Unit (Option α)

/-- The caller-registered failed-record hook (`on_failed_record`); its result
is only logged and any exception it raises is caught by the inner
try/except, so the outcome never influences control flow. -/
def Hook (α β γ : Type) : Type :=
  ProcArg β γ → Record β → List α → Except Unit Unit

/-- Trace entry: one invocation of the record processor. `idx` is the
position of the record in `event['Records']` (0 in pass-through mode). -/
structure ProcCall (α β γ : Type) where
  idx : Nat
  arg : ProcArg β γ
  rawArg : ProcArg β γ
  prev : List α
  output : Except Unit (Option α)
deriving DecidableEq, Repr

/-- Trace entry: one invocation of the failed-record hook, with the value the
Python local `decoded_event` held at that point. -/
structure HookCall (α β γ : Type) where
  idx : Nat
  arg : ProcArg β γ
  rawRecord : Record β
  prev : List α
  outcome : Except Unit Unit
deriving DecidableEq, Repr

/-- Trace entry: one invocation of `sqs.delete_message`. `queueUrl` is the
value returned by `get_url` (possibly `None`: the resulting client error is
caught by the broad except clause, like every other deletion error). -/
structure DeleteCall where
  idx : Nat
  queueUrl : Option String
  receiptHandle : String
deriving DecidableEq, Repr

/-- State of the `for record in event['Records']` loop, plus the observation
traces.  `lastDecoded` is the current binding of the Python local
`decoded_event` (`none` before the first successful assignment). -/
structure LoopState (α β γ : Type) where
  idx : Nat
  prev : List α
  outRecords : List (Record β)
  errorCount : Nat
  lastDecoded : Option (ProcArg β γ)
  procCalls : List (ProcCall α β γ)
  hookCalls : List (HookCall α β γ)
deriving DecidableEq, Repr

/-- Decoding of one record:
`json.loads(record['body']) if record.get('eventSource') == 'aws:sqs' else record`.
`none` models a raised exception (`KeyError` on a missing `body`, or a JSON
decode error, the oracle `parse` returning `none`). -/
def decodeOf (parse : String → Option γ) (r : Record β) :
    Option (ProcArg β γ) :=
  if r.eventSource = some "aws:sqs" then
    match r.body with
    | none => none
    | some s => (parse s).map ProcArg.json
  else some (ProcArg.record r)

/-- The effect of `record['__failed'] = True` on a record dictionary. -/
def markFailed (r : Record β) : Record β := { r with failed := true }

/-- One iteration of the processing loop over one record. -/
def stepRecord (parse : String → Option γ) (proc : Proc α β γ)
    (hook : Option (Hook α β γ)) (s : LoopState α β γ) (r : Record β) :
    LoopState α β γ :=
  match decodeOf parse r with
  | none =>
      -- The decode raised, so `decoded_event` keeps its previous binding.
      -- The hook call sits inside the inner try/except: with no previous
      -- binding the `UnboundLocalError` is caught there and the hook body
      -- never runs; otherwise the hook receives the stale previous value.
      let hookCalls :=
        match hook, s.lastDecoded with
        | some h, some d => s.hookCalls ++ [⟨s.idx, d, r, s.prev, h d r s.prev⟩]
        | _, _ => s.hookCalls
      { s with
        idx := s.idx + 1
        outRecords := s.outRecords ++ [markFailed r]
        errorCount := s.errorCount + 1
        hookCalls := hookCalls }
  | some d =>
      let out := proc d (ProcArg.record r) s.prev
      let procCalls := s.procCalls ++ [⟨s.idx, d, ProcArg.record r, s.prev, out⟩]
      match out with
      | Except.error _ =>
          let hookCalls :=
            match hook with
            | some h => s.hookCalls ++ [⟨s.idx, d, r, s.prev, h d r s.prev⟩]
            | none => s.hookCalls
          { s with
            idx := s.idx + 1
            outRecords := s.outRecords ++ [markFailed r]
            errorCount := s.errorCount + 1
            lastDecoded := some d
            procCalls := procCalls
            hookCalls := hookCalls }
      | Except.ok res =>
          { s with
            idx := s.idx + 1
            prev := s.prev ++ res.toList
            outRecords := s.outRecords ++ [r]
            lastDecoded := some d
            procCalls := procCalls }

/-- The processing loop over the whole batch. -/
def runRecords (parse : String → Option γ) (proc : Proc α β γ)
    (hook : Option (Hook α β γ)) :
    LoopState α β γ → List (Record β) → LoopState α β γ
  | s, [] => s
  | s, r :: rest => runRecords parse proc hook (stepRecord parse proc hook s r) rest

/-- Pair every element of a list with its position, starting at `i`. -/
def withIdx : Nat → List σ → List (Nat × σ)
  | _, [] => []
  | i, x :: xs => (i, x) :: withIdx (i + 1) xs

/-- Embedding of `SqsBatchHandler.resolve_records` minus its final `raise`
(accounted for in `invoke`): skip records whose `eventSource` is not
`'aws:sqs'`; for the others evaluate `get_url(rec['eventSourceArn'])` (a
missing ARN raises `KeyError` before any call and is caught), then
`rec['receiptHandle']` (same), then invoke `delete_message`; every deletion
error is caught, logged and skipped.  Records arrive paired with their
position in the original batch. -/
def resolve_records (lookup : String → String → Option String) :
    List (Nat × Record β) → UrlCache → UrlCache × List DeleteCall
  | [], c => (c, [])
  | (i, r) :: rest, c =>
      if r.eventSource = some "aws:sqs" then
        match r.eventSourceArn with
        | none => resolve_records lookup rest c
        | some arn =>
            let u := get_url lookup arn c
            match r.receiptHandle with
            | none => resolve_records lookup rest u.2
            | some h =>
                let rec_rest := resolve_records lookup rest u.2
                (rec_rest.1, ⟨i, u.1, h⟩ :: rec_rest.2)
      else
        resolve_records lookup rest c

/-- Outcome raised out of `invoke`: the processor's own exception in
pass-through mode, or the deliberate `Exception('Partial batch failure')`. -/
inductive InvokeError where
  | fromProcessor : InvokeError
  | batchFailure : InvokeError
deriving DecidableEq, Repr

/-- Value returned by `invoke` on the non-raising paths: the processor's
result in pass-through mode, or the literal `0` after a fully successful
batch. -/
inductive InvokeValue (α : Type) where
  | passthrough : Option α → InvokeValue α
  | zero : InvokeValue α
deriving DecidableEq, Repr

/-- Full observable outcome of one `invoke`: the returned value or raised
error, the post-state of `event['Records']`, the three call traces, and the
queue-URL cache post-state. -/
structure InvokeOut (α β γ : Type) where
  result : Except InvokeError (InvokeValue α)
  records : List (Record β)
  deleteCalls : List DeleteCall
  procCalls : List (ProcCall α β γ)
  hookCalls : List (HookCall α β γ)
  cache : UrlCache
deriving DecidableEq, Repr

/-- Initial loop state: `previous_results = ()`, `error_count = 0`, empty
traces, `decoded_event` unbound. -/
def initState : LoopState α β γ := ⟨0, [], [], 0, none, [], []⟩

/-- Embedding of `SqsBatchHandler.__call__` (with a registered `on_record`).
Pass-through when `Records` is absent or not a list; otherwise run the
per-record loop, then either return `0` (all records successful) or run
`resolve_records` on the successful records and raise the batch failure. -/
def invoke (parse : String → Option γ) (proc : Proc α β γ)
    (hook : Option (Hook α β γ)) (lookup : String → String → Option String)
    (event : Event β γ) (c : UrlCache) : InvokeOut α β γ :=
  match event with
  | Event.other b =>
      let out := proc (ProcArg.rawEvent b) (ProcArg.rawEvent b) []
      { result :=
          match out with
          | Except.ok v => Except.ok (InvokeValue.passthrough v)
          | Except.error _ => Except.error InvokeError.fromProcessor
        records := []
        deleteCalls := []
        procCalls := [⟨0, ProcArg.rawEvent b, ProcArg.rawEvent b, [], out⟩]
        hookCalls := []
        cache := c }
  | Event.batch records =>
      let s := runRecords parse proc hook initState records
      let successful := (withIdx 0 s.outRecords).filter (fun p => !p.2.failed)
      if s.outRecords.length = successful.length then
        { result := Except.ok InvokeValue.zero
          records := s.outRecords
          deleteCalls := []
          procCalls := s.procCalls
          hookCalls := s.hookCalls
          cache := c }
      else
        let resolved := resolve_records lookup successful c
        { result := Except.error InvokeError.batchFailure
          records := s.outRecords
          deleteCalls := resolved.2
          procCalls := s.procCalls
          hookCalls := s.hookCalls
          cache := resolved.1 }

/-- The contribution of one processor invocation to the accumulated
`previous_results`: the returned value when the call succeeded with a
non-`None` result, nothing otherwise. -/
def okOutput (pc : ProcCall α β γ) : Option α :=
  match pc.output with
  | Except.ok (some v) => some v
  | _ => none

/-- The arguments of a hook invocation, without the hook's own outcome (the
source discards that outcome, so two hooks called at the same points differ
at most in it). -/
def hookCallArgs (hc : HookCall α β γ) :
    Nat × ProcArg β γ × Record β × List α :=
  (hc.idx, hc.arg, hc.rawRecord, hc.prev)

/-- The most recent successfully decoded body among a list of records: the
value the Python local `decoded_event` holds after iterating over them
(starting unbound, modelled as `none`). -/
def staleDecoded (parse : String → Option γ) (l : List (Record β)) :
    Option (ProcArg β γ) :=
  (l.filterMap (decodeOf parse)).foldl (fun _ d => some d) none

end SqsBatchHandler

end Sqs

/-! ## Concrete fixtures used by witnesses and counterexamples -/

namespace Fix

open Sqs Sqs.SqsBatchHandler

/-- A non-queue record (`eventSource` absent): passed through undecoded. -/
def recP : Record Nat := ⟨none, none, none, none, false, 1⟩

/-- A second non-queue record. -/
def recQ : Record Nat := ⟨none, none, none, none, false, 2⟩

/-- Queue-sourced records with well-formed metadata and decodable bodies. -/
def rec0 : Record Nat := ⟨some "aws:sqs", some "a:q0", some "h0", some "b0", false, 0⟩

def rec1 : Record Nat := ⟨some "aws:sqs", some "a:q1", some "h1", some "b1", false, 0⟩

def rec2 : Record Nat := ⟨some "aws:sqs", some "a:q2", some "h2", some "b2", false, 0⟩

/-- A queue-sourced record whose body fails to decode under `parseW`. -/
def badRec : Record Nat := ⟨some "aws:sqs", some "a:qb", some "hb", some "bad", false, 0⟩

/-- JSON oracle: every body decodes to `7` except the literal `"bad"`. -/
def parseW : String → Option Nat := fun s => if s = "bad" then none else some 7

/-- Processor failing exactly on `rec1`, succeeding with `some 3` elsewhere. -/
def procFail1 : Proc Nat Nat Nat := fun _ rr _ =>
  if rr = ProcArg.record rec1 then Except.error () else Except.ok (some 3)

/-- Processor returning `some 5` on `recP` and `None` elsewhere. -/
def proc5 : Proc Nat Nat Nat := fun a _ _ =>
  if a = ProcArg.record recP then Except.ok (some 5) else Except.ok none

/-- A failed-record hook that itself always raises. -/
def hookW : Hook Nat Nat Nat := fun _ _ _ => Except.error ()

/-- Queue service oracle resolving every queue to the same URL. -/
def lookupW : String → String → Option String := fun _ _ => some "u"

def cache0 : UrlCache := ⟨[], 0⟩

/-- Fixture run for the C4 witness. -/
def outC4 : InvokeOut Nat Nat Nat :=
  invoke parseW proc5 none lookupW (Event.batch [recP, recQ]) cache0

/-- Fixture run for the C1 witness: three queue records, `rec1` fails. -/
def outC1 : InvokeOut Nat Nat Nat :=
  invoke parseW procFail1 (some hookW) lookupW
    (Event.batch [rec0, rec1, rec2]) cache0

/-- Fixture run for the C6 witness: a processor failure on `rec1`, then a
decode failure on `badRec`. -/
def outC6 : InvokeOut Nat Nat Nat :=
  invoke parseW procFail1 (some hookW) lookupW
    (Event.batch [rec0, rec1, badRec]) cache0

/-- Fixture run for the C6 counterexample: a single record whose body fails
to decode, with a hook registered. -/
def outC6a : InvokeOut Nat Nat Nat :=
  invoke parseW procFail1 (some hookW) lookupW (Event.batch [badRec]) cache0

end Fix

/-! ## Theorems -/

open Sqs Sqs.SqsBatchHandler

/-! ### Queue-URL resolution claims -/

/-- C8 — counterexample to the claim as stated.  The claim asserts that an
absent resolution result "is not written into the process-wide cache".  But
`@cached(cache={\x7d})` wraps the whole function uniformly: resolving the
malformed identifier `"not-an-arn"` from an empty cache returns `None` and
writes the entry `("not-an-arn", None)` into the cache. -/
theorem claim_C8_counterexample :
    (Sqs.get_url (fun _ _ => some "u") "not-an-arn" ⟨[], 0⟩).2.entries =
      [("not-an-arn", none)] ∧
    (Sqs.get_url (fun _ _ => some "u") "not-an-arn" ⟨[], 0⟩).1 = none := by
  constructor <;> decide

/-- C8 (amended): for every malformed queue identifier (fewer than two
':'-delimited trailing components) and for every queue that no longer
exists, queue-URL resolution returns absent (`none`) and never raises
(`get_url` is total, every exception being caught inside it); the warning
logging has no observable effect and is not modelled.  Contrary to the
original claim, the absent result IS written into the process-wide cache:
the memoizing wrapper stores every result, including `none`. -/
theorem claim_C8 (lookup : String → String → Option String)
    (queue_arn : String) (c : UrlCache)
    (hmiss : c.entries.find? (fun p => p.1 == queue_arn) = none)
    (habsent : parseArn queue_arn = none ∨
      ∃ qn aid, parseArn queue_arn = some (qn, aid) ∧ lookup qn aid = none) :
    (Sqs.get_url lookup queue_arn c).1 = none ∧
    (Sqs.get_url lookup queue_arn c).2.entries =
      c.entries ++ [(queue_arn, none)] := by
  rcases habsent with hp | ⟨qn, aid, hp, hl⟩
  · simp [Sqs.get_url, hmiss, get_url_body, hp]
  · simp [Sqs.get_url, hmiss, get_url_body, hp, hl]

/-- Witness for C8 at the spec's own scenario input `"not-an-arn"`. -/
theorem claim_C8_witness :
    (Sqs.get_url (fun _ _ => none) "not-an-arn" ⟨[], 0⟩).1 = none ∧
    (Sqs.get_url (fun _ _ => none) "not-an-arn" ⟨[], 0⟩).2.entries =
      UrlCache.entries ⟨[], 0⟩ ++ [("not-an-arn", none)] :=
  claim_C8 (fun _ _ => none) "not-an-arn" ⟨[], 0⟩ rfl (Or.inl (by decide))

/-- C9: two resolutions of the same identifier return the same address and
trigger at most one underlying `get_queue_url` call between them, from any
starting cache state: the first call either hits the cache or stores its
result (absent included) under the raw identifier, so the second call is a
cache hit. -/
theorem claim_C9 (lookup : String → String → Option String)
    (queue_arn : String) (c : UrlCache) :
    (Sqs.get_url lookup queue_arn (Sqs.get_url lookup queue_arn c).2).1 =
      (Sqs.get_url lookup queue_arn c).1 ∧
    (Sqs.get_url lookup queue_arn (Sqs.get_url lookup queue_arn c).2).2.lookupCount ≤
      c.lookupCount + 1 := by
  have hbody : (get_url_body lookup queue_arn).2 ≤ 1 := by
    unfold get_url_body
    cases hp : parseArn queue_arn with
    | none => simp
    | some p => simp
  cases hf : c.entries.find? (fun p => p.1 == queue_arn) with
  | some p => simp [Sqs.get_url, hf]
  | none =>
      have hfind : ((c.entries ++ [(queue_arn, (get_url_body lookup queue_arn).1)]).find?
          (fun p => p.1 == queue_arn)) =
            some (queue_arn, (get_url_body lookup queue_arn).1) := by
        rw [List.find?_append, hf]
        simp
      simp only [Sqs.get_url, hf, hfind]
      refine ⟨by simp, ?_⟩
      simpa using hbody

/-! ### Batch handler claims -/

/-- C2 — counterexample to the claim as stated.  The claim includes batches
whose `Records` list is empty, but `Records: []` IS a list, so
`__call__` takes the batch path: the loop body never runs, all zero records
are "successful", and `invoke` returns `0` without ever calling the record
processor — not the processor's result.  Here the processor would return
`some 7`, so pass-through mode would be observably different. -/
theorem claim_C2_counterexample :
    ((Sqs.SqsBatchHandler.invoke (fun _ => none)
        ((fun _ _ _ => Except.ok (some 7)) : Proc Nat Nat Nat) none
        (fun _ _ => none) (Event.batch []) ⟨[], 0⟩).procCalls = [] ∧
     (Sqs.SqsBatchHandler.invoke (fun _ => none)
        ((fun _ _ _ => Except.ok (some 7)) : Proc Nat Nat Nat) none
        (fun _ _ => none) (Event.batch []) ⟨[], 0⟩).result =
       Except.ok InvokeValue.zero) := by
  constructor <;> rfl

/-- C2 (amended): for every invocation whose event has no `Records` key or
whose `Records` value is not a list, the record processor is invoked exactly
once on the raw event with an empty accumulated-results sequence and its
result (or raised exception) is returned directly, with no resolution or
deletion logic.  An event with an EMPTY `Records` list instead takes the
batch path trivially: the processor is never invoked and `invoke` returns
the success signal `0`, again with no deletions. -/
theorem claim_C2 (parse : String → Option γ) (proc : Proc α β γ)
    (hook : Option (Hook α β γ)) (lookup : String → String → Option String)
    (b : β) (c : UrlCache) :
    (invoke parse proc hook lookup (Event.other b) c).procCalls =
      [⟨0, ProcArg.rawEvent b, ProcArg.rawEvent b, [],
        proc (ProcArg.rawEvent b) (ProcArg.rawEvent b) []⟩] ∧
    (invoke parse proc hook lookup (Event.other b) c).result =
      (match proc (ProcArg.rawEvent b) (ProcArg.rawEvent b) [] with
       | Except.ok v => Except.ok (InvokeValue.passthrough v)
       | Except.error _ => Except.error InvokeError.fromProcessor) ∧
    (invoke parse proc hook lookup (Event.other b) c).deleteCalls = [] ∧
    (invoke parse proc hook lookup (Event.other b) c).hookCalls = [] ∧
    (invoke parse proc hook lookup (Event.batch []) c).procCalls = [] ∧
    (invoke parse proc hook lookup (Event.batch []) c).result =
      Except.ok InvokeValue.zero ∧
    (invoke parse proc hook lookup (Event.batch []) c).deleteCalls = [] := by
  refine ⟨rfl, rfl, rfl, rfl, rfl, rfl, rfl⟩

/-! ### Loop lemmas -/

theorem runRecords_nil (parse : String → Option γ) (proc : Proc α β γ)
    (hook : Option (Hook α β γ)) (s : LoopState α β γ) :
    runRecords parse proc hook s [] = s := rfl

theorem runRecords_cons (parse : String → Option γ) (proc : Proc α β γ)
    (hook : Option (Hook α β γ)) (s : LoopState α β γ) (r : Record β)
    (l : List (Record β)) :
    runRecords parse proc hook s (r :: l) =
      runRecords parse proc hook (stepRecord parse proc hook s r) l := rfl

theorem stepRecord_ok (parse : String → Option γ) (proc : Proc α β γ)
    (hook : Option (Hook α β γ)) (s : LoopState α β γ) (r : Record β)
    (d : ProcArg β γ) (v : Option α) (hd : decodeOf parse r = some d)
    (hv : proc d (ProcArg.record r) s.prev = Except.ok v) :
    stepRecord parse proc hook s r = { s with
      idx := s.idx + 1
      prev := s.prev ++ v.toList
      outRecords := s.outRecords ++ [r]
      lastDecoded := some d
      procCalls := s.procCalls ++
        [⟨s.idx, d, ProcArg.record r, s.prev, Except.ok v⟩] } := by
  simp [stepRecord, hd, hv]

theorem stepRecord_err (parse : String → Option γ) (proc : Proc α β γ)
    (hook : Option (Hook α β γ)) (s : LoopState α β γ) (r : Record β)
    (d : ProcArg β γ) (e : Unit) (hd : decodeOf parse r = some d)
    (hv : proc d (ProcArg.record r) s.prev = Except.error e) :
    stepRecord parse proc hook s r = { s with
      idx := s.idx + 1
      outRecords := s.outRecords ++ [markFailed r]
      errorCount := s.errorCount + 1
      lastDecoded := some d
      procCalls := s.procCalls ++
        [⟨s.idx, d, ProcArg.record r, s.prev, Except.error e⟩]
      hookCalls := s.hookCalls ++
        (match hook with
         | some h => [⟨s.idx, d, r, s.prev, h d r s.prev⟩]
         | none => []) } := by
  cases hook <;> simp [stepRecord, hd, hv]

theorem stepRecord_decodeFail (parse : String → Option γ) (proc : Proc α β γ)
    (hook : Option (Hook α β γ)) (s : LoopState α β γ) (r : Record β)
    (hd : decodeOf parse r = none) :
    stepRecord parse proc hook s r = { s with
      idx := s.idx + 1
      outRecords := s.outRecords ++ [markFailed r]
      errorCount := s.errorCount + 1
      hookCalls := s.hookCalls ++
        (match hook, s.lastDecoded with
         | some h, some d => [⟨s.idx, d, r, s.prev, h d r s.prev⟩]
         | _, _ => []) } := by
  cases hook <;> cases hld : s.lastDecoded <;> simp [stepRecord, hd, hld]

theorem runRecords_ok_segment (parse : String → Option γ) (proc : Proc α β γ)
    (hook : Option (Hook α β γ)) (l : List (Record β)) (s : LoopState α β γ)
    (hok : ∀ r ∈ l, ∃ d, decodeOf parse r = some d ∧
      ∀ prev, ∃ v, proc d (ProcArg.record r) prev = Except.ok v) :
    (runRecords parse proc hook s l).outRecords = s.outRecords ++ l ∧
    (runRecords parse proc hook s l).errorCount = s.errorCount ∧
    (runRecords parse proc hook s l).hookCalls = s.hookCalls ∧
    (runRecords parse proc hook s l).idx = s.idx + l.length := by
  induction l generalizing s with
  | nil => simp [runRecords_nil]
  | cons r rest ih =>
      obtain ⟨d, hd, hpv⟩ := hok r (by simp)
      obtain ⟨v, hv⟩ := hpv s.prev
      have hstep := stepRecord_ok parse proc hook s r d v hd hv
      have h2 := ih (stepRecord parse proc hook s r)
        (fun r' hr' => hok r' (by simp [hr']))
      rw [runRecords_cons]
      refine ⟨?_, ?_, ?_, ?_⟩
      · rw [h2.1, hstep]; simp
      · rw [h2.2.1, hstep]
      · rw [h2.2.2.1, hstep]
      · rw [h2.2.2.2, hstep]; simp; omega

theorem withIdx_length (l : List σ) : ∀ j, (withIdx j l).length = l.length := by
  induction l with
  | nil => intro j; rfl
  | cons x xs ih => intro j; simp [withIdx, ih]

theorem mem_withIdx_snd (l : List σ) :
    ∀ j (p : Nat × σ), p ∈ withIdx j l → p.2 ∈ l := by
  induction l with
  | nil => intro j p h; cases h
  | cons x xs ih =>
      intro j p h
      simp only [withIdx] at h
      rcases List.mem_cons.mp h with h | h
      · subst h; simp
      · exact List.mem_cons_of_mem x (ih (j + 1) p h)

theorem withIdx_filter_clean (l : List (Record β)) (j : Nat)
    (hclean : ∀ r ∈ l, r.failed = false) :
    (withIdx j l).filter (fun p => !p.2.failed) = withIdx j l := by
  rw [List.filter_eq_self]
  intro p hp
  have := hclean p.2 (mem_withIdx_snd l j p hp)
  simp [this]

theorem invoke_batch_eq (parse : String → Option γ) (proc : Proc α β γ)
    (hook : Option (Hook α β γ)) (lookup : String → String → Option String)
    (records : List (Record β)) (c : UrlCache) :
    invoke parse proc hook lookup (Event.batch records) c =
      if (runRecords parse proc hook initState records).outRecords.length =
          ((withIdx 0 (runRecords parse proc hook initState records).outRecords).filter
            (fun p => !p.2.failed)).length then
        ⟨Except.ok InvokeValue.zero,
         (runRecords parse proc hook initState records).outRecords, [],
         (runRecords parse proc hook initState records).procCalls,
         (runRecords parse proc hook initState records).hookCalls, c⟩
      else
        ⟨Except.error InvokeError.batchFailure,
         (runRecords parse proc hook initState records).outRecords,
         (resolve_records lookup
           ((withIdx 0 (runRecords parse proc hook initState records).outRecords).filter
             (fun p => !p.2.failed)) c).2,
         (runRecords parse proc hook initState records).procCalls,
         (runRecords parse proc hook initState records).hookCalls,
         (resolve_records lookup
           ((withIdx 0 (runRecords parse proc hook initState records).outRecords).filter
             (fun p => !p.2.failed)) c).1⟩ := rfl

/-- C3: for every batch in which every record is processed successfully
(its body decodes and the processor call returns without raising, for any
accumulated results), and whose records carry no pre-existing `'__failed'`
marker (the platform never delivers one), `invoke` returns the neutral
success signal `0` and issues zero `delete_message` calls. -/
theorem claim_C3 (parse : String → Option γ) (proc : Proc α β γ)
    (hook : Option (Hook α β γ)) (lookup : String → String → Option String)
    (records : List (Record β)) (c : UrlCache)
    (hclean : ∀ r ∈ records, r.failed = false)
    (hok : ∀ r ∈ records, ∃ d, decodeOf parse r = some d ∧
      ∀ prev, ∃ v, proc d (ProcArg.record r) prev = Except.ok v) :
    (invoke parse proc hook lookup (Event.batch records) c).result =
      Except.ok InvokeValue.zero ∧
    (invoke parse proc hook lookup (Event.batch records) c).deleteCalls = [] := by
  have hseg := runRecords_ok_segment parse proc hook records initState hok
  have hout : (runRecords parse proc hook initState records).outRecords = records := by
    rw [hseg.1]; rfl
  rw [invoke_batch_eq, hout, withIdx_filter_clean records 0 hclean,
    if_pos (by rw [withIdx_length])]
  exact ⟨rfl, rfl⟩

/-- Witness for C3: a one-record batch (a non-queue record, passed through
undecoded) whose processor call always succeeds. -/
theorem claim_C3_witness :
    ((invoke (fun _ => none) ((fun _ _ _ => Except.ok none) : Proc Nat Nat Nat)
        none (fun _ _ => none)
        (Event.batch [⟨none, none, none, none, false, 0⟩]) ⟨[], 0⟩).result =
      Except.ok InvokeValue.zero ∧
     (invoke (fun _ => none) ((fun _ _ _ => Except.ok none) : Proc Nat Nat Nat)
        none (fun _ _ => none)
        (Event.batch [⟨none, none, none, none, false, 0⟩]) ⟨[], 0⟩).deleteCalls = []) :=
  claim_C3 (fun _ => none) (fun _ _ _ => Except.ok none) none (fun _ _ => none)
    [⟨none, none, none, none, false, 0⟩] ⟨[], 0⟩
    (by decide)
    (fun r hr => by
      simp only [List.mem_singleton] at hr
      subst hr
      exact ⟨ProcArg.record ⟨none, none, none, none, false, 0⟩, rfl,
        fun prev => ⟨none, rfl⟩⟩)

theorem invoke_batch_procCalls (parse : String → Option γ) (proc : Proc α β γ)
    (hook : Option (Hook α β γ)) (lookup : String → String → Option String)
    (records : List (Record β)) (c : UrlCache) :
    (invoke parse proc hook lookup (Event.batch records) c).procCalls =
      (runRecords parse proc hook initState records).procCalls := by
  rw [invoke_batch_eq]; split <;> rfl

theorem invoke_batch_hookCalls (parse : String → Option γ) (proc : Proc α β γ)
    (hook : Option (Hook α β γ)) (lookup : String → String → Option String)
    (records : List (Record β)) (c : UrlCache) :
    (invoke parse proc hook lookup (Event.batch records) c).hookCalls =
      (runRecords parse proc hook initState records).hookCalls := by
  rw [invoke_batch_eq]; split <;> rfl

theorem invoke_batch_records (parse : String → Option γ) (proc : Proc α β γ)
    (hook : Option (Hook α β γ)) (lookup : String → String → Option String)
    (records : List (Record β)) (c : UrlCache) :
    (invoke parse proc hook lookup (Event.batch records) c).records =
      (runRecords parse proc hook initState records).outRecords := by
  rw [invoke_batch_eq]; split <;> rfl

theorem runRecords_prev_invariant (parse : String → Option γ) (proc : Proc α β γ)
    (hook : Option (Hook α β γ)) (l : List (Record β)) :
    ∀ s : LoopState α β γ,
    s.prev = s.procCalls.filterMap okOutput →
    (∀ j (hj : j < s.procCalls.length),
      s.procCalls[j].prev = (s.procCalls.take j).filterMap okOutput) →
    (runRecords parse proc hook s l).prev =
      (runRecords parse proc hook s l).procCalls.filterMap okOutput ∧
    ∀ j (hj : j < (runRecords parse proc hook s l).procCalls.length),
      (runRecords parse proc hook s l).procCalls[j].prev =
        ((runRecords parse proc hook s l).procCalls.take j).filterMap okOutput := by
  induction l with
  | nil => intro s h1 h2; exact ⟨h1, h2⟩
  | cons r rest ih =>
      intro s h1 h2
      rw [runRecords_cons]
      cases hd : decodeOf parse r with
      | none =>
          have hstep := stepRecord_decodeFail parse proc hook s r hd
          apply ih
          · rw [hstep]; exact h1
          · rw [hstep]; exact h2
      | some d =>
          cases hv : proc d (ProcArg.record r) s.prev with
          | ok v =>
              have hstep := stepRecord_ok parse proc hook s r d v hd hv
              apply ih
              · rw [hstep]
                show s.prev ++ v.toList =
                  (s.procCalls ++
                    [ProcCall.mk s.idx d (ProcArg.record r) s.prev (Except.ok v)]).filterMap okOutput
                rw [List.filterMap_append, ← h1]
                congr 1
                cases v <;> rfl
              · rw [hstep]
                intro j hj
                show (s.procCalls ++
                    [ProcCall.mk s.idx d (ProcArg.record r) s.prev (Except.ok v)])[j].prev =
                  ((s.procCalls ++
                    [ProcCall.mk s.idx d (ProcArg.record r) s.prev (Except.ok v)]).take j).filterMap okOutput
                rcases Nat.lt_or_ge j s.procCalls.length with hlt | hge
                · rw [List.getElem_append_left hlt,
                    List.take_append_of_le_length (le_of_lt hlt)]
                  exact h2 j hlt
                · have hlen : j <
                      (s.procCalls ++
                        [ProcCall.mk s.idx d (ProcArg.record r) s.prev
                          (Except.ok v)]).length := hj
                  rw [List.length_append] at hlen
                  have hjeq : j = s.procCalls.length := by
                    simp only [List.length_cons, List.length_nil] at hlen
                    omega
                  rw [List.getElem_concat_length _ _ _ hjeq, hjeq, List.take_left]
                  exact h1
          | error e =>
              have hstep := stepRecord_err parse proc hook s r d e hd hv
              apply ih
              · rw [hstep]
                show s.prev =
                  (s.procCalls ++
                    [ProcCall.mk s.idx d (ProcArg.record r) s.prev (Except.error e)]).filterMap okOutput
                rw [List.filterMap_append, ← h1]
                simp [okOutput]
              · rw [hstep]
                intro j hj
                show (s.procCalls ++
                    [ProcCall.mk s.idx d (ProcArg.record r) s.prev (Except.error e)])[j].prev =
                  ((s.procCalls ++
                    [ProcCall.mk s.idx d (ProcArg.record r) s.prev (Except.error e)]).take j).filterMap okOutput
                rcases Nat.lt_or_ge j s.procCalls.length with hlt | hge
                · rw [List.getElem_append_left hlt,
                    List.take_append_of_le_length (le_of_lt hlt)]
                  exact h2 j hlt
                · have hlen : j <
                      (s.procCalls ++
                        [ProcCall.mk s.idx d (ProcArg.record r) s.prev
                          (Except.error e)]).length := hj
                  rw [List.length_append] at hlen
                  have hjeq : j = s.procCalls.length := by
                    simp only [List.length_cons, List.length_nil] at hlen
                    clear hj
                    omega
                  rw [List.getElem_concat_length _ _ _ hjeq, hjeq, List.take_left]
                  exact h1

/-- C4: in every batch run, the accumulated-results sequence passed to each
record-processor invocation equals the ordered sequence of non-`None`
outputs of the earlier processor invocations that returned successfully
(`okOutput` extracts exactly those): outputs of failed calls and `None`
outputs are never appended.  Records whose body fails to decode receive no
processor invocation and contribute nothing. -/
theorem claim_C4 (parse : String → Option γ) (proc : Proc α β γ)
    (hook : Option (Hook α β γ)) (lookup : String → String → Option String)
    (records : List (Record β)) (c : UrlCache) :
    ∀ j (hj : j <
      (invoke parse proc hook lookup (Event.batch records) c).procCalls.length),
      (invoke parse proc hook lookup (Event.batch records) c).procCalls[j].prev =
        ((invoke parse proc hook lookup
            (Event.batch records) c).procCalls.take j).filterMap okOutput := by
  have h := runRecords_prev_invariant parse proc hook records initState rfl
    (fun j hj => absurd hj (by simp [initState]))
  intro j hj
  have hj2 : j < (runRecords parse proc hook initState records).procCalls.length := by
    rw [invoke_batch_procCalls] at hj; exact hj
  simp only [invoke_batch_procCalls]
  exact h.2 j hj2

/-- Witness for C4: a two-record batch (both non-queue records) where the
first call returns `some 5`; the second invocation's accumulated results
are exactly `[5]`. -/
theorem claim_C4_witness :
    ∃ hj : 1 < Fix.outC4.procCalls.length,
      Fix.outC4.procCalls[1].prev =
        (Fix.outC4.procCalls.take 1).filterMap okOutput :=
  ⟨by decide,
    claim_C4 Fix.parseW Fix.proc5 none Fix.lookupW [Fix.recP, Fix.recQ]
      Fix.cache0 1 (by decide)⟩

theorem runRecords_core_eq (parse : String → Option γ) (proc : Proc α β γ)
    (hk hk' : Option (Hook α β γ)) (l : List (Record β)) :
    ∀ s s' : LoopState α β γ,
    s.idx = s'.idx → s.prev = s'.prev → s.outRecords = s'.outRecords →
    s.errorCount = s'.errorCount → s.lastDecoded = s'.lastDecoded →
    s.procCalls = s'.procCalls →
    (runRecords parse proc hk s l).idx = (runRecords parse proc hk' s' l).idx ∧
    (runRecords parse proc hk s l).prev = (runRecords parse proc hk' s' l).prev ∧
    (runRecords parse proc hk s l).outRecords =
      (runRecords parse proc hk' s' l).outRecords ∧
    (runRecords parse proc hk s l).errorCount =
      (runRecords parse proc hk' s' l).errorCount ∧
    (runRecords parse proc hk s l).lastDecoded =
      (runRecords parse proc hk' s' l).lastDecoded ∧
    (runRecords parse proc hk s l).procCalls =
      (runRecords parse proc hk' s' l).procCalls := by
  induction l with
  | nil =>
      intro s s' h1 h2 h3 h4 h5 h6
      exact ⟨h1, h2, h3, h4, h5, h6⟩
  | cons r rest ih =>
      intro s s' h1 h2 h3 h4 h5 h6
      rw [runRecords_cons, runRecords_cons]
      cases hd : decodeOf parse r with
      | none =>
          have e1 := stepRecord_decodeFail parse proc hk s r hd
          have e2 := stepRecord_decodeFail parse proc hk' s' r hd
          exact ih _ _ (by rw [e1, e2]; simp [h1]) (by rw [e1, e2]; exact h2)
            (by rw [e1, e2]; simp [h3]) (by rw [e1, e2]; simp [h4])
            (by rw [e1, e2]; exact h5) (by rw [e1, e2]; exact h6)
      | some d =>
          cases hv : proc d (ProcArg.record r) s.prev with
          | ok v =>
              have hv' : proc d (ProcArg.record r) s'.prev = Except.ok v := by
                rw [← h2]; exact hv
              have e1 := stepRecord_ok parse proc hk s r d v hd hv
              have e2 := stepRecord_ok parse proc hk' s' r d v hd hv'
              exact ih _ _ (by rw [e1, e2]; simp [h1]) (by rw [e1, e2]; simp [h2])
                (by rw [e1, e2]; simp [h3]) (by rw [e1, e2]; simp [h4])
                (by rw [e1, e2]) (by rw [e1, e2]; simp [h1, h2, h6])
          | error e =>
              have hv' : proc d (ProcArg.record r) s'.prev = Except.error e := by
                rw [← h2]; exact hv
              have e1 := stepRecord_err parse proc hk s r d e hd hv
              have e2 := stepRecord_err parse proc hk' s' r d e hd hv'
              exact ih _ _ (by rw [e1, e2]; simp [h1]) (by rw [e1, e2]; exact h2)
                (by rw [e1, e2]; simp [h3]) (by rw [e1, e2]; simp [h4])
                (by rw [e1, e2]) (by rw [e1, e2]; simp [h1, h2, h6])

theorem runRecords_hookArgs_eq (parse : String → Option γ) (proc : Proc α β γ)
    (h h' : Hook α β γ) (l : List (Record β)) :
    ∀ s s' : LoopState α β γ,
    s.idx = s'.idx → s.prev = s'.prev → s.outRecords = s'.outRecords →
    s.errorCount = s'.errorCount → s.lastDecoded = s'.lastDecoded →
    s.procCalls = s'.procCalls →
    s.hookCalls.map hookCallArgs = s'.hookCalls.map hookCallArgs →
    (runRecords parse proc (some h) s l).hookCalls.map hookCallArgs =
      (runRecords parse proc (some h') s' l).hookCalls.map hookCallArgs := by
  induction l with
  | nil =>
      intro s s' h1 h2 h3 h4 h5 h6 hmap
      exact hmap
  | cons r rest ih =>
      intro s s' h1 h2 h3 h4 h5 h6 hmap
      rw [runRecords_cons, runRecords_cons]
      cases hd : decodeOf parse r with
      | none =>
          have e1 := stepRecord_decodeFail parse proc (some h) s r hd
          have e2 := stepRecord_decodeFail parse proc (some h') s' r hd
          refine ih _ _ (by rw [e1, e2]; simp [h1]) (by rw [e1, e2]; exact h2)
            (by rw [e1, e2]; simp [h3]) (by rw [e1, e2]; simp [h4])
            (by rw [e1, e2]; exact h5) (by rw [e1, e2]; exact h6) ?_
          rw [e1, e2]
          show (s.hookCalls ++ _).map hookCallArgs =
            (s'.hookCalls ++ _).map hookCallArgs
          rw [List.map_append, List.map_append, hmap]
          cases hld : s.lastDecoded with
          | none => rw [h5] at hld; rw [hld]
          | some dd =>
              rw [h5] at hld; rw [hld]
              simp [hookCallArgs, h1, h2]
      | some d =>
          cases hv : proc d (ProcArg.record r) s.prev with
          | ok v =>
              have hv' : proc d (ProcArg.record r) s'.prev = Except.ok v := by
                rw [← h2]; exact hv
              have e1 := stepRecord_ok parse proc (some h) s r d v hd hv
              have e2 := stepRecord_ok parse proc (some h') s' r d v hd hv'
              exact ih _ _ (by rw [e1, e2]; simp [h1]) (by rw [e1, e2]; simp [h2])
                (by rw [e1, e2]; simp [h3]) (by rw [e1, e2]; simp [h4])
                (by rw [e1, e2]) (by rw [e1, e2]; simp [h1, h2, h6])
                (by rw [e1, e2]; exact hmap)
          | error e =>
              have hv' : proc d (ProcArg.record r) s'.prev = Except.error e := by
                rw [← h2]; exact hv
              have e1 := stepRecord_err parse proc (some h) s r d e hd hv
              have e2 := stepRecord_err parse proc (some h') s' r d e hd hv'
              refine ih _ _ (by rw [e1, e2]; simp [h1]) (by rw [e1, e2]; exact h2)
                (by rw [e1, e2]; simp [h3]) (by rw [e1, e2]; simp [h4])
                (by rw [e1, e2]) (by rw [e1, e2]; simp [h1, h2, h6]) ?_
              rw [e1, e2]
              show (s.hookCalls ++ _).map hookCallArgs =
                (s'.hookCalls ++ _).map hookCallArgs
              rw [List.map_append, List.map_append, hmap]
              simp [hookCallArgs, h1, h2]

/-- C5: the failed-record hook cannot influence the outcome of `invoke`.
The source wraps the hook call in its own try/except whose handler only
logs, so the hook's result — raised error included — is discarded; in the
model the hook's outcome is recorded in the trace but read nowhere.
Consequently, for EVERY hook (an always-raising one included) the result,
the post-state records, the delete calls, the processor calls and the cache
are those of a run with no hook at all — so when some record fails, `invoke`
still processes the remaining records, still runs batch resolution, and
raises exactly the batch-failure signal, never the hook's error — and two
different hooks are invoked at exactly the same points with the same
arguments. -/
theorem claim_C5 (parse : String → Option γ) (proc : Proc α β γ)
    (h h' : Hook α β γ) (lookup : String → String → Option String)
    (event : Event β γ) (c : UrlCache) :
    (invoke parse proc (some h) lookup event c).result =
      (invoke parse proc none lookup event c).result ∧
    (invoke parse proc (some h) lookup event c).records =
      (invoke parse proc none lookup event c).records ∧
    (invoke parse proc (some h) lookup event c).deleteCalls =
      (invoke parse proc none lookup event c).deleteCalls ∧
    (invoke parse proc (some h) lookup event c).procCalls =
      (invoke parse proc none lookup event c).procCalls ∧
    (invoke parse proc (some h) lookup event c).cache =
      (invoke parse proc none lookup event c).cache ∧
    (invoke parse proc (some h) lookup event c).hookCalls.map hookCallArgs =
      (invoke parse proc (some h') lookup event c).hookCalls.map hookCallArgs := by
  cases event with
  | other b => exact ⟨rfl, rfl, rfl, rfl, rfl, rfl⟩
  | batch records =>
      obtain ⟨-, -, hout, -, -, hpc⟩ :=
        runRecords_core_eq parse proc (some h) none records initState initState
          rfl rfl rfl rfl rfl rfl
      obtain ⟨-, -, hout2, -, -, hpc2⟩ :=
        runRecords_core_eq parse proc (some h') none records initState initState
          rfl rfl rfl rfl rfl rfl
      have hm := runRecords_hookArgs_eq parse proc h h' records initState
        initState rfl rfl rfl rfl rfl rfl rfl
      rw [invoke_batch_eq parse proc (some h) lookup records c,
        invoke_batch_eq parse proc none lookup records c,
        invoke_batch_eq parse proc (some h') lookup records c,
        hout, hpc, hout2, hpc2]
      refine ⟨?_, ?_, ?_, ?_, ?_, ?_⟩ <;> split <;> first | rfl | exact hm

theorem stepRecord_idx (parse : String → Option γ) (proc : Proc α β γ)
    (hook : Option (Hook α β γ)) (s : LoopState α β γ) (r : Record β) :
    (stepRecord parse proc hook s r).idx = s.idx + 1 := by
  cases hd : decodeOf parse r with
  | none => rw [stepRecord_decodeFail parse proc hook s r hd]
  | some d =>
      cases hv : proc d (ProcArg.record r) s.prev with
      | ok v => rw [stepRecord_ok parse proc hook s r d v hd hv]
      | error e => rw [stepRecord_err parse proc hook s r d e hd hv]

theorem runRecords_outRecords_extend (parse : String → Option γ)
    (proc : Proc α β γ) (hook : Option (Hook α β γ)) (l : List (Record β)) :
    ∀ s : LoopState α β γ, ∃ new,
      (runRecords parse proc hook s l).outRecords = s.outRecords ++ new := by
  induction l with
  | nil => intro s; exact ⟨[], by rw [runRecords_nil]; simp⟩
  | cons r rest ih =>
      intro s
      rw [runRecords_cons]
      obtain ⟨new, hnew⟩ := ih (stepRecord parse proc hook s r)
      cases hd : decodeOf parse r with
      | none =>
          refine ⟨markFailed r :: new, ?_⟩
          rw [hnew, stepRecord_decodeFail parse proc hook s r hd]
          simp
      | some d =>
          cases hv : proc d (ProcArg.record r) s.prev with
          | ok v =>
              refine ⟨r :: new, ?_⟩
              rw [hnew, stepRecord_ok parse proc hook s r d v hd hv]
              simp
          | error e =>
              refine ⟨markFailed r :: new, ?_⟩
              rw [hnew, stepRecord_err parse proc hook s r d e hd hv]
              simp

theorem runRecords_procCalls_extend (parse : String → Option γ)
    (proc : Proc α β γ) (hook : Option (Hook α β γ)) (l : List (Record β)) :
    ∀ s : LoopState α β γ, ∃ new,
      (runRecords parse proc hook s l).procCalls = s.procCalls ++ new ∧
      ∀ pc ∈ new, s.idx ≤ pc.idx := by
  induction l with
  | nil => intro s; exact ⟨[], by rw [runRecords_nil]; simp, by simp⟩
  | cons r rest ih =>
      intro s
      rw [runRecords_cons]
      obtain ⟨new, hnew, hb⟩ := ih (stepRecord parse proc hook s r)
      have hsi := stepRecord_idx parse proc hook s r
      cases hd : decodeOf parse r with
      | none =>
          refine ⟨new, ?_, ?_⟩
          · rw [hnew, stepRecord_decodeFail parse proc hook s r hd]
          · intro pc hm
            have := hb pc hm
            rw [hsi] at this
            omega
      | some d =>
          cases hv : proc d (ProcArg.record r) s.prev with
          | ok v =>
              refine ⟨ProcCall.mk s.idx d (ProcArg.record r) s.prev
                (Except.ok v) :: new, ?_, ?_⟩
              · rw [hnew, stepRecord_ok parse proc hook s r d v hd hv]
                simp
              · intro pc hm
                rcases List.mem_cons.mp hm with hm | hm
                · rw [hm]
                · have := hb pc hm
                  rw [hsi] at this
                  omega
          | error e =>
              refine ⟨ProcCall.mk s.idx d (ProcArg.record r) s.prev
                (Except.error e) :: new, ?_, ?_⟩
              · rw [hnew, stepRecord_err parse proc hook s r d e hd hv]
                simp
              · intro pc hm
                rcases List.mem_cons.mp hm with hm | hm
                · rw [hm]
                · have := hb pc hm
                  rw [hsi] at this
                  omega

theorem runRecords_outcome (parse : String → Option γ) (proc : Proc α β γ)
    (hook : Option (Hook α β γ)) (l : List (Record β)) :
    ∀ s : LoopState α β γ,
    (∀ pc ∈ s.procCalls, pc.idx < s.idx) →
    ∀ i (hi : i < l.length),
      ((runRecords parse proc hook s l).outRecords[s.outRecords.length + i]? =
          some l[i] ∧
        ∃ pc ∈ (runRecords parse proc hook s l).procCalls, pc.idx = s.idx + i ∧
          pc.rawArg = ProcArg.record l[i] ∧ ∃ v, pc.output = Except.ok v)
      ∨ ((runRecords parse proc hook s l).outRecords[s.outRecords.length + i]? =
          some (markFailed l[i]) ∧
        ∀ pc ∈ (runRecords parse proc hook s l).procCalls, pc.idx = s.idx + i →
          ∀ v, pc.output ≠ Except.ok v) := by
  induction l with
  | nil => intro s hpc i hi; exact absurd hi (by simp)
  | cons r rest ih =>
      intro s hpc i hi
      rw [runRecords_cons]
      obtain ⟨newOut, hOut⟩ :=
        runRecords_outRecords_extend parse proc hook rest
          (stepRecord parse proc hook s r)
      obtain ⟨newPc, hPc, hPcB⟩ :=
        runRecords_procCalls_extend parse proc hook rest
          (stepRecord parse proc hook s r)
      have hsi := stepRecord_idx parse proc hook s r
      cases hd : decodeOf parse r with
      | none =>
          have hstep := stepRecord_decodeFail parse proc hook s r hd
          cases i with
          | zero =>
              right
              constructor
              · rw [hOut, hstep]
                show ((s.outRecords ++ [markFailed r]) ++
                    newOut)[s.outRecords.length + 0]? = some (markFailed (r :: rest)[0])
                rw [Nat.add_zero,
                  List.getElem?_append_left (by simp),
                  List.getElem?_concat_length]
                simp
              · intro pc hmem hidx v
                rw [hPc] at hmem
                rcases List.mem_append.mp hmem with hin | hin
                · have hin2 : pc ∈ s.procCalls := by rw [hstep] at hin; exact hin
                  have hlt := hpc pc hin2
                  rw [Nat.add_zero] at hidx
                  rw [hidx] at hlt
                  exact absurd hlt (lt_irrefl _)
                · have hb := hPcB pc hin
                  rw [hsi] at hb
                  rw [Nat.add_zero] at hidx
                  rw [hidx] at hb
                  exact absurd hb (by omega)
          | succ j =>
              have hb : ∀ pc ∈ (stepRecord parse proc hook s r).procCalls,
                  pc.idx < (stepRecord parse proc hook s r).idx := by
                intro pc hmem
                have hm2 : pc ∈ s.procCalls := by rw [hstep] at hmem; exact hmem
                rw [hsi]
                exact Nat.lt_succ_of_lt (hpc pc hm2)
              have hj : j < rest.length := by
                simp only [List.length_cons] at hi
                omega
              have H := ih (stepRecord parse proc hook s r) hb j hj
              have hlen2 : (stepRecord parse proc hook s r).outRecords.length =
                  s.outRecords.length + 1 := by rw [hstep]; simp
              rw [hsi, hlen2] at H
              have e1 : s.outRecords.length + 1 + j = s.outRecords.length + (j + 1) := by
                omega
              have e2 : s.idx + 1 + j = s.idx + (j + 1) := by omega
              rw [e1, e2] at H
              simpa using H
      | some d =>
          cases hv : proc d (ProcArg.record r) s.prev with
          | ok v =>
              have hstep := stepRecord_ok parse proc hook s r d v hd hv
              cases i with
              | zero =>
                  left
                  constructor
                  · rw [hOut, hstep]
                    show ((s.outRecords ++ [r]) ++
                        newOut)[s.outRecords.length + 0]? = some (r :: rest)[0]
                    rw [Nat.add_zero,
                      List.getElem?_append_left (by simp),
                      List.getElem?_concat_length]
                    simp
                  · refine ⟨ProcCall.mk s.idx d (ProcArg.record r) s.prev
                      (Except.ok v), ?_, by simp, by simp, ⟨v, rfl⟩⟩
                    rw [hPc, hstep]
                    show _ ∈ (s.procCalls ++
                      [ProcCall.mk s.idx d (ProcArg.record r) s.prev
                        (Except.ok v)]) ++ newPc
                    exact List.mem_append.mpr
                      (Or.inl (List.mem_append.mpr (Or.inr (by simp))))
              | succ j =>
                  have hb : ∀ pc ∈ (stepRecord parse proc hook s r).procCalls,
                      pc.idx < (stepRecord parse proc hook s r).idx := by
                    intro pc hmem
                    have hm2 : pc ∈ s.procCalls ++
                        [ProcCall.mk s.idx d (ProcArg.record r) s.prev
                          (Except.ok v)] := by
                      rw [hstep] at hmem; exact hmem
                    rw [hsi]
                    rcases List.mem_append.mp hm2 with hin | hin
                    · exact Nat.lt_succ_of_lt (hpc pc hin)
                    · rw [List.mem_singleton.mp hin]
                      exact Nat.lt_succ_self _
                  have hj : j < rest.length := by
                    simp only [List.length_cons] at hi
                    omega
                  have H := ih (stepRecord parse proc hook s r) hb j hj
                  have hlen2 : (stepRecord parse proc hook s r).outRecords.length =
                      s.outRecords.length + 1 := by rw [hstep]; simp
                  rw [hsi, hlen2] at H
                  have e1 : s.outRecords.length + 1 + j =
                      s.outRecords.length + (j + 1) := by omega
                  have e2 : s.idx + 1 + j = s.idx + (j + 1) := by omega
                  rw [e1, e2] at H
                  simpa using H
          | error e =>
              have hstep := stepRecord_err parse proc hook s r d e hd hv
              cases i with
              | zero =>
                  right
                  constructor
                  · rw [hOut, hstep]
                    show ((s.outRecords ++ [markFailed r]) ++
                        newOut)[s.outRecords.length + 0]? =
                      some (markFailed (r :: rest)[0])
                    rw [Nat.add_zero,
                      List.getElem?_append_left (by simp),
                      List.getElem?_concat_length]
                    simp
                  · intro pc hmem hidx v
                    rw [hPc] at hmem
                    rcases List.mem_append.mp hmem with hin | hin
                    · have hin2 : pc ∈ s.procCalls ++
                          [ProcCall.mk s.idx d (ProcArg.record r) s.prev
                            (Except.error e)] := by
                        rw [hstep] at hin; exact hin
                      rcases List.mem_append.mp hin2 with hin3 | hin3
                      · have hlt := hpc pc hin3
                        rw [Nat.add_zero] at hidx
                        rw [hidx] at hlt
                        exact absurd hlt (lt_irrefl _)
                      · rw [List.mem_singleton.mp hin3]
                        intro hcon
                        exact Except.noConfusion hcon
                    · have hb := hPcB pc hin
                      rw [hsi] at hb
                      rw [Nat.add_zero] at hidx
                      rw [hidx] at hb
                      exact absurd hb (by omega)
              | succ j =>
                  have hb : ∀ pc ∈ (stepRecord parse proc hook s r).procCalls,
                      pc.idx < (stepRecord parse proc hook s r).idx := by
                    intro pc hmem
                    have hm2 : pc ∈ s.procCalls ++
                        [ProcCall.mk s.idx d (ProcArg.record r) s.prev
                          (Except.error e)] := by
                      rw [hstep] at hmem; exact hmem
                    rw [hsi]
                    rcases List.mem_append.mp hm2 with hin | hin
                    · exact Nat.lt_succ_of_lt (hpc pc hin)
                    · rw [List.mem_singleton.mp hin]
                      exact Nat.lt_succ_self _
                  have hj : j < rest.length := by
                    simp only [List.length_cons] at hi
                    omega
                  have H := ih (stepRecord parse proc hook s r) hb j hj
                  have hlen2 : (stepRecord parse proc hook s r).outRecords.length =
                      s.outRecords.length + 1 := by rw [hstep]; simp
                  rw [hsi, hlen2] at H
                  have e1 : s.outRecords.length + 1 + j =
                      s.outRecords.length + (j + 1) := by omega
                  have e2 : s.idx + 1 + j = s.idx + (j + 1) := by omega
                  rw [e1, e2] at H
                  simpa using H

theorem runRecords_outRecords_length (parse : String → Option γ)
    (proc : Proc α β γ) (hook : Option (Hook α β γ)) (l : List (Record β)) :
    ∀ s : LoopState α β γ,
    (runRecords parse proc hook s l).outRecords.length =
      s.outRecords.length + l.length := by
  induction l with
  | nil => intro s; rw [runRecords_nil]; simp
  | cons r rest ih =>
      intro s
      rw [runRecords_cons, ih]
      have hlen2 : (stepRecord parse proc hook s r).outRecords.length =
          s.outRecords.length + 1 := by
        cases hd : decodeOf parse r with
        | none => rw [stepRecord_decodeFail parse proc hook s r hd]; simp
        | some d =>
            cases hv : proc d (ProcArg.record r) s.prev with
            | ok v => rw [stepRecord_ok parse proc hook s r d v hd hv]; simp
            | error e => rw [stepRecord_err parse proc hook s r d e hd hv]; simp
      rw [hlen2]
      simp
      omega

theorem mem_withIdx_getElem (l : List σ) :
    ∀ j (p : Nat × σ), p ∈ withIdx j l → j ≤ p.1 ∧ l[p.1 - j]? = some p.2 := by
  induction l with
  | nil => intro j p h; cases h
  | cons x xs ih =>
      intro j p h
      simp only [withIdx] at h
      rcases List.mem_cons.mp h with h | h
      · subst h
        exact ⟨Nat.le_refl j, by simp⟩
      · obtain ⟨hle, hget⟩ := ih (j + 1) p h
        refine ⟨by omega, ?_⟩
        have he : p.1 - j = (p.1 - (j + 1)) + 1 := by omega
        rw [he, List.getElem?_cons_succ]
        exact hget

theorem resolve_records_mem (lookup : String → String → Option String)
    (recs : List (Nat × Record β)) :
    ∀ c : UrlCache, ∀ dc ∈ (resolve_records lookup recs c).2, ∃ p ∈ recs,
      dc.idx = p.1 ∧ p.2.eventSource = some "aws:sqs" ∧
      p.2.receiptHandle = some dc.receiptHandle := by
  induction recs with
  | nil => intro c dc hdc; simp [resolve_records] at hdc
  | cons q rest ih =>
      intro c dc hdc
      by_cases hsqs : q.2.eventSource = some "aws:sqs"
      · rcases hArn : q.2.eventSourceArn with _ | arn
        · simp only [resolve_records, hsqs, if_true, hArn] at hdc
          obtain ⟨p, hp, h1, h2, h3⟩ := ih c dc hdc
          exact ⟨p, List.mem_cons_of_mem q hp, h1, h2, h3⟩
        · rcases hRh : q.2.receiptHandle with _ | hdl
          · simp only [resolve_records, hsqs, if_true, hArn, hRh] at hdc
            obtain ⟨p, hp, h1, h2, h3⟩ := ih _ dc hdc
            exact ⟨p, List.mem_cons_of_mem q hp, h1, h2, h3⟩
          · simp only [resolve_records, hsqs, if_true, hArn, hRh] at hdc
            rcases List.mem_cons.mp hdc with hh | hh
            · subst hh
              exact ⟨q, List.mem_cons_self q rest, rfl, hsqs, hRh.symm ▸ rfl⟩
            · obtain ⟨p, hp, h1, h2, h3⟩ := ih _ dc hh
              exact ⟨p, List.mem_cons_of_mem q hp, h1, h2, h3⟩
      · simp only [resolve_records, hsqs, if_false] at hdc
        obtain ⟨p, hp, h1, h2, h3⟩ := ih c dc hdc
        exact ⟨p, List.mem_cons_of_mem q hp, h1, h2, h3⟩

/-- C10: the only mutation `invoke` performs on the caller's event is
setting the `'__failed'` key: the batch keeps its length, and every record
of the post-state either is the input record unchanged (exactly when a
processor call for it returned successfully) or is the input record with
only the failed flag set to `true` (`markFailed` changes no other field),
exactly when no processor call for that record succeeded — the record
failed in decoding or in processing.  The deletion pass reads but never
writes records. -/
theorem claim_C10 (parse : String → Option γ) (proc : Proc α β γ)
    (hook : Option (Hook α β γ)) (lookup : String → String → Option String)
    (records : List (Record β)) (c : UrlCache) :
    (invoke parse proc hook lookup (Event.batch records) c).records.length =
      records.length ∧
    ∀ i (hi : i < records.length),
      ((invoke parse proc hook lookup (Event.batch records) c).records[i]? =
          some records[i] ∧
        ∃ pc ∈ (invoke parse proc hook lookup (Event.batch records) c).procCalls,
          pc.idx = i ∧ pc.rawArg = ProcArg.record records[i] ∧
          ∃ v, pc.output = Except.ok v)
      ∨ ((invoke parse proc hook lookup (Event.batch records) c).records[i]? =
          some (markFailed records[i]) ∧
        ∀ pc ∈ (invoke parse proc hook lookup (Event.batch records) c).procCalls,
          pc.idx = i → ∀ v, pc.output ≠ Except.ok v) := by
  rw [invoke_batch_records, invoke_batch_procCalls]
  constructor
  · rw [runRecords_outRecords_length]
    simp [initState]
  · intro i hi
    have H := runRecords_outcome parse proc hook records initState
      (by intro pc h; simp [initState] at h) i hi
    simpa [initState] using H

/-- Witness for C10 at the three-record fixture where only `rec1` fails. -/
theorem claim_C10_witness :
    1 < [Fix.rec0, Fix.rec1, Fix.rec2].length ∧
    ((Fix.outC1.records[1]? = some Fix.rec1 ∧
      ∃ pc ∈ Fix.outC1.procCalls, pc.idx = 1 ∧
        pc.rawArg = ProcArg.record Fix.rec1 ∧ ∃ v, pc.output = Except.ok v) ∨
     (Fix.outC1.records[1]? = some (markFailed Fix.rec1) ∧
      ∀ pc ∈ Fix.outC1.procCalls, pc.idx = 1 → ∀ v,
        pc.output ≠ Except.ok v)) :=
  ⟨by decide,
    (claim_C10 Fix.parseW Fix.procFail1 (some Fix.hookW) Fix.lookupW
      [Fix.rec0, Fix.rec1, Fix.rec2] Fix.cache0).2 1 (by decide)⟩

/-- C7: every `delete_message` call of a batch run targets a record whose
processor call has already returned successfully: the deletion pass runs
only after the whole processing loop, over the records whose failed flag is
unset, so the receipt handle passed to each delete call is that of a record
with a successful processor invocation — never that of a failed record. -/
theorem claim_C7 (parse : String → Option γ) (proc : Proc α β γ)
    (hook : Option (Hook α β γ)) (lookup : String → String → Option String)
    (records : List (Record β)) (c : UrlCache) :
    ∀ dc ∈ (invoke parse proc hook lookup (Event.batch records) c).deleteCalls,
      ∃ r, (invoke parse proc hook lookup
          (Event.batch records) c).records[dc.idx]? = some r ∧
        r.failed = false ∧ r.receiptHandle = some dc.receiptHandle ∧
        ∃ pc ∈ (invoke parse proc hook lookup (Event.batch records) c).procCalls,
          pc.idx = dc.idx ∧ ∃ v, pc.output = Except.ok v := by
  rw [invoke_batch_records, invoke_batch_procCalls]
  intro dc hdc
  rw [invoke_batch_eq] at hdc
  split at hdc
  · exact absurd hdc (by simp)
  · obtain ⟨p, hp, hidx, hsqs, hrh⟩ := resolve_records_mem lookup _ c dc hdc
    obtain ⟨hwi, hnf⟩ := List.mem_filter.mp hp
    obtain ⟨-, hget⟩ := mem_withIdx_getElem _ 0 p hwi
    rw [Nat.sub_zero] at hget
    have hfail : p.2.failed = false := by
      simpa using hnf
    have hlt : p.1 <
        (runRecords parse proc hook initState records).outRecords.length :=
      (List.getElem?_eq_some.mp hget).1
    have hlenout :
        (runRecords parse proc hook initState records).outRecords.length =
          records.length := by
      rw [runRecords_outRecords_length]
      simp [initState]
    have hlt2 : p.1 < records.length := by rw [← hlenout]; exact hlt
    have H := runRecords_outcome parse proc hook records initState
      (by intro pc h; simp [initState] at h) p.1 hlt2
    have e0 : (initState : LoopState α β γ).outRecords.length + p.1 = p.1 := by
      simp [initState]
    have e1 : (initState : LoopState α β γ).idx + p.1 = p.1 := by
      simp [initState]
    rw [e0, e1] at H
    rcases H with ⟨hpos, pc, hpcmem, hpcidx, hraw, v, hov⟩ | ⟨hneg, -⟩
    · have hpeq : p.2 = records[p.1] := by
        rw [hget] at hpos
        exact Option.some_injective _ hpos
      refine ⟨p.2, ?_, hfail, hrh, pc, hpcmem, ?_, v, hov⟩
      · rw [hidx]; exact hget
      · rw [hpcidx, hidx]
    · exfalso
      rw [hget] at hneg
      have : p.2 = markFailed records[p.1] := Option.some_injective _ hneg
      rw [this] at hfail
      simp [markFailed] at hfail

/-- Witness for C7 at the three-record fixture where only `rec1` fails:
the first issued delete call targets `rec0`, a successful record. -/
theorem claim_C7_witness :
    DeleteCall.mk 0 (some "u") "h0" ∈ Fix.outC1.deleteCalls ∧
    ∃ r, Fix.outC1.records[(DeleteCall.mk 0 (some "u") "h0").idx]? = some r ∧
      r.failed = false ∧
      r.receiptHandle = some (DeleteCall.mk 0 (some "u") "h0").receiptHandle ∧
      ∃ pc ∈ Fix.outC1.procCalls, pc.idx = (DeleteCall.mk 0 (some "u") "h0").idx ∧
        ∃ v, pc.output = Except.ok v :=
  ⟨by decide,
    claim_C7 Fix.parseW Fix.procFail1 (some Fix.hookW) Fix.lookupW
      [Fix.rec0, Fix.rec1, Fix.rec2] Fix.cache0
      (DeleteCall.mk 0 (some "u") "h0") (by decide)⟩

theorem runRecords_append (parse : String → Option γ) (proc : Proc α β γ)
    (hook : Option (Hook α β γ)) (l1 l2 : List (Record β)) :
    ∀ s : LoopState α β γ,
    runRecords parse proc hook s (l1 ++ l2) =
      runRecords parse proc hook (runRecords parse proc hook s l1) l2 := by
  induction l1 with
  | nil => intro s; rfl
  | cons r rest ih => intro s; rw [List.cons_append, runRecords_cons,
      runRecords_cons, ih]

theorem withIdx_append (l1 l2 : List σ) :
    ∀ j, withIdx j (l1 ++ l2) = withIdx j l1 ++ withIdx (j + l1.length) l2 := by
  induction l1 with
  | nil => intro j; simp [withIdx]
  | cons x xs ih =>
      intro j
      show (j, x) :: withIdx (j + 1) (xs ++ l2) =
        (j, x) :: (withIdx (j + 1) xs ++ withIdx (j + (xs.length + 1)) l2)
      rw [ih (j + 1)]
      have : j + 1 + xs.length = j + (xs.length + 1) := by omega
      rw [this]

theorem withIdx_map_fst (l : List σ) :
    ∀ j, (withIdx j l).map Prod.fst = List.range' j l.length := by
  induction l with
  | nil => intro j; rfl
  | cons x xs ih =>
      intro j
      simp only [withIdx, List.map_cons, List.length_cons, List.range'_succ, ih]

theorem resolve_records_map (lookup : String → String → Option String)
    (recs : List (Nat × Record β)) :
    ∀ c : UrlCache,
    (∀ p ∈ recs, p.2.eventSource = some "aws:sqs" ∧
      p.2.eventSourceArn.isSome ∧ p.2.receiptHandle.isSome) →
    ((resolve_records lookup recs c).2).map DeleteCall.idx =
      recs.map Prod.fst := by
  induction recs with
  | nil => intro c hc; rfl
  | cons q rest ih =>
      intro c hc
      obtain ⟨hs, ha, hh⟩ := hc q (List.mem_cons_self q rest)
      obtain ⟨arn, hArn⟩ := Option.isSome_iff_exists.mp ha
      obtain ⟨hdl, hRh⟩ := Option.isSome_iff_exists.mp hh
      simp only [resolve_records, hs, if_true, hArn, hRh, List.map_cons]
      rw [ih _ (fun p hp => hc p (List.mem_cons_of_mem q hp))]

/-- C1: for a batch of well-formed queue-sourced records (origin marker
`'aws:sqs'`, ARN and receipt handle present, no pre-existing failed marker,
decodable bodies) in which the record processor fails exactly on the record
at position `pre.length` (for every accumulated-results value) and a
failed-record hook is registered, `invoke`:
raises the batch-failure signal unconditionally — for EVERY queue-service
oracle `lookup`, so failures to resolve a queue URL are never fatal to the
resolution pass (and every `delete_message` outcome is caught in the
source, so deletion errors cannot be fatal either);
issues exactly `n - 1 = pre.length + post.length` `delete_message` calls,
one per successful record in order, none for the failed record;
and invokes the hook exactly once, for the failed record. -/
theorem claim_C1 (parse : String → Option γ) (proc : Proc α β γ)
    (h : Hook α β γ) (lookup : String → String → Option String)
    (pre post : List (Record β)) (rk : Record β) (c : UrlCache)
    (hwf : ∀ r ∈ pre ++ rk :: post, r.eventSource = some "aws:sqs" ∧
      r.eventSourceArn.isSome ∧ r.receiptHandle.isSome ∧ r.failed = false)
    (hokpre : ∀ r ∈ pre, ∃ d, decodeOf parse r = some d ∧
      ∀ prev, ∃ v, proc d (ProcArg.record r) prev = Except.ok v)
    (hokpost : ∀ r ∈ post, ∃ d, decodeOf parse r = some d ∧
      ∀ prev, ∃ v, proc d (ProcArg.record r) prev = Except.ok v)
    (hdk : ∃ d, decodeOf parse rk = some d)
    (hfk : ∀ d prev, decodeOf parse rk = some d →
      ∃ e, proc d (ProcArg.record rk) prev = Except.error e) :
    (invoke parse proc (some h) lookup (Event.batch (pre ++ rk :: post)) c).result =
      Except.error InvokeError.batchFailure ∧
    (invoke parse proc (some h) lookup
        (Event.batch (pre ++ rk :: post)) c).deleteCalls.map DeleteCall.idx =
      List.range' 0 pre.length ++ List.range' (pre.length + 1) post.length ∧
    (invoke parse proc (some h) lookup
        (Event.batch (pre ++ rk :: post)) c).deleteCalls.length =
      pre.length + post.length ∧
    (invoke parse proc (some h) lookup
        (Event.batch (pre ++ rk :: post)) c).hookCalls.map HookCall.idx =
      [pre.length] := by
  obtain ⟨d, hd⟩ := hdk
  have hpre := runRecords_ok_segment parse proc (some h) pre initState hokpre
  obtain ⟨e, he⟩ :=
    hfk d (runRecords parse proc (some h) initState pre).prev hd
  have hstep := stepRecord_err parse proc (some h)
    (runRecords parse proc (some h) initState pre) rk d e hd he
  have hpost := runRecords_ok_segment parse proc (some h) post
    (stepRecord parse proc (some h)
      (runRecords parse proc (some h) initState pre) rk) hokpost
  have hsplit : runRecords parse proc (some h) initState (pre ++ rk :: post) =
      runRecords parse proc (some h)
        (stepRecord parse proc (some h)
          (runRecords parse proc (some h) initState pre) rk) post := by
    rw [runRecords_append, runRecords_cons]
  have hout : (runRecords parse proc (some h) initState
      (pre ++ rk :: post)).outRecords = pre ++ markFailed rk :: post := by
    rw [hsplit, hpost.1, hstep]
    show (runRecords parse proc (some h) initState pre).outRecords ++
      [markFailed rk] ++ post = pre ++ markFailed rk :: post
    rw [hpre.1]
    show pre ++ [markFailed rk] ++ post = pre ++ markFailed rk :: post
    simp
  have hhook : (runRecords parse proc (some h) initState
      (pre ++ rk :: post)).hookCalls.map HookCall.idx = [pre.length] := by
    rw [hsplit, hpost.2.2.1, hstep]
    show ((runRecords parse proc (some h) initState pre).hookCalls ++
      [HookCall.mk (runRecords parse proc (some h) initState pre).idx d rk
        (runRecords parse proc (some h) initState pre).prev
        (h d rk (runRecords parse proc (some h) initState pre).prev)]).map
          HookCall.idx = [pre.length]
    rw [hpre.2.2.1, hpre.2.2.2]
    simp [initState]
  have hfilter : (withIdx 0 (pre ++ markFailed rk :: post)).filter
      (fun p => !p.2.failed) = withIdx 0 pre ++ withIdx (pre.length + 1) post := by
    have hsing : pre ++ markFailed rk :: post =
        pre ++ [markFailed rk] ++ post := by simp
    rw [hsing, withIdx_append, withIdx_append, List.filter_append,
      List.filter_append,
      withIdx_filter_clean pre 0 (fun r hr => (hwf r (by simp [hr])).2.2.2),
      withIdx_filter_clean post _ (fun r hr => (hwf r (by simp [hr])).2.2.2)]
    simp [withIdx, markFailed]
  have hcond : ∀ p ∈ withIdx 0 pre ++ withIdx (pre.length + 1) post,
      p.2.eventSource = some "aws:sqs" ∧ p.2.eventSourceArn.isSome ∧
      p.2.receiptHandle.isSome := by
    intro p hp
    rcases List.mem_append.mp hp with hin | hin
    · have := mem_withIdx_snd pre 0 p hin
      exact ⟨(hwf p.2 (by simp [this])).1, (hwf p.2 (by simp [this])).2.1,
        (hwf p.2 (by simp [this])).2.2.1⟩
    · have := mem_withIdx_snd post _ p hin
      exact ⟨(hwf p.2 (by simp [this])).1, (hwf p.2 (by simp [this])).2.1,
        (hwf p.2 (by simp [this])).2.2.1⟩
  rw [invoke_batch_eq, hout, hfilter,
    if_neg (by
      simp only [List.length_append, List.length_cons, withIdx_length]
      omega)]
  refine ⟨rfl, ?_, ?_, hhook⟩
  · show ((resolve_records lookup
      (withIdx 0 pre ++ withIdx (pre.length + 1) post) c).2).map DeleteCall.idx = _
    rw [resolve_records_map lookup _ c hcond, List.map_append,
      withIdx_map_fst, withIdx_map_fst]
  · show ((resolve_records lookup
      (withIdx 0 pre ++ withIdx (pre.length + 1) post) c).2).length = _
    have hmap := resolve_records_map lookup
      (withIdx 0 pre ++ withIdx (pre.length + 1) post) c hcond
    have := congrArg List.length hmap
    simp only [List.length_map, List.length_append, withIdx_length] at this
    exact this

/-- Witness for C1: three queue-sourced records, the middle one failing.
`invoke` raises the batch failure, issues exactly two delete calls (records
0 and 2) and invokes the hook exactly once, for record 1. -/
theorem claim_C1_witness :
    Fix.outC1.result = Except.error InvokeError.batchFailure ∧
    Fix.outC1.deleteCalls.map DeleteCall.idx =
      List.range' 0 1 ++ List.range' 2 1 ∧
    Fix.outC1.deleteCalls.length = 1 + 1 ∧
    Fix.outC1.hookCalls.map HookCall.idx = [1] :=
  claim_C1 Fix.parseW Fix.procFail1 Fix.hookW Fix.lookupW
    [Fix.rec0] [Fix.rec2] Fix.rec1 Fix.cache0
    (by decide)
    (fun r hr => by
      simp only [List.mem_singleton] at hr
      subst hr
      exact ⟨ProcArg.json 7, by decide, fun prev => ⟨some 3, rfl⟩⟩)
    (fun r hr => by
      simp only [List.mem_singleton] at hr
      subst hr
      exact ⟨ProcArg.json 7, by decide, fun prev => ⟨some 3, rfl⟩⟩)
    ⟨ProcArg.json 7, by decide⟩
    (fun d prev hd => ⟨(), rfl⟩)

theorem runRecords_hookCalls_extend (parse : String → Option γ)
    (proc : Proc α β γ) (hook : Option (Hook α β γ)) (l : List (Record β)) :
    ∀ s : LoopState α β γ, ∃ new,
      (runRecords parse proc hook s l).hookCalls = s.hookCalls ++ new ∧
      ∀ hc ∈ new, s.idx ≤ hc.idx := by
  induction l with
  | nil => intro s; exact ⟨[], by rw [runRecords_nil]; simp, by simp⟩
  | cons r rest ih =>
      intro s
      rw [runRecords_cons]
      obtain ⟨new, hnew, hb⟩ := ih (stepRecord parse proc hook s r)
      have hsi := stepRecord_idx parse proc hook s r
      have hbb : ∀ hc ∈ new, s.idx ≤ hc.idx := by
        intro hc hm
        have := hb hc hm
        rw [hsi] at this
        omega
      cases hd : decodeOf parse r with
      | none =>
          rcases hook with _ | hkv
          · refine ⟨new, ?_, hbb⟩
            rw [hnew, stepRecord_decodeFail parse proc none s r hd]
            rcases hld : s.lastDecoded with _ | dd <;> simp
          · rcases hld : s.lastDecoded with _ | dd
            · refine ⟨new, ?_, hbb⟩
              rw [hnew, stepRecord_decodeFail parse proc (some hkv) s r hd, hld]
              simp
            · refine ⟨HookCall.mk s.idx dd r s.prev (hkv dd r s.prev) :: new,
                ?_, ?_⟩
              · rw [hnew, stepRecord_decodeFail parse proc (some hkv) s r hd,
                  hld]
                simp
              · intro hc hm
                rcases List.mem_cons.mp hm with hm | hm
                · rw [hm]
                · exact hbb hc hm
      | some d =>
          cases hv : proc d (ProcArg.record r) s.prev with
          | ok v =>
              refine ⟨new, ?_, hbb⟩
              rw [hnew, stepRecord_ok parse proc hook s r d v hd hv]
          | error e =>
              rcases hook with _ | hkv
              · refine ⟨new, ?_, hbb⟩
                rw [hnew, stepRecord_err parse proc none s r d e hd hv]
                show (s.hookCalls ++ ([] : List (HookCall α β γ))) ++ new = _
                simp
              · refine ⟨HookCall.mk s.idx d r s.prev (hkv d r s.prev) :: new,
                  ?_, ?_⟩
                · rw [hnew, stepRecord_err parse proc (some hkv) s r d e hd hv]
                  show (s.hookCalls ++
                    [HookCall.mk s.idx d r s.prev (hkv d r s.prev)]) ++ new = _
                  simp
                · intro hc hm
                  rcases List.mem_cons.mp hm with hm | hm
                  · rw [hm]
                  · exact hbb hc hm

theorem stepRecord_decodeFail_hnone (parse : String → Option γ)
    (proc : Proc α β γ) (hk : Hook α β γ) (s : LoopState α β γ) (r : Record β)
    (hd : decodeOf parse r = none) (hld : s.lastDecoded = none) :
    stepRecord parse proc (some hk) s r = { s with
      idx := s.idx + 1
      outRecords := s.outRecords ++ [markFailed r]
      errorCount := s.errorCount + 1 } := by
  rw [stepRecord_decodeFail parse proc (some hk) s r hd, hld]
  simp [hld]

theorem stepRecord_decodeFail_hsome (parse : String → Option γ)
    (proc : Proc α β γ) (hk : Hook α β γ) (s : LoopState α β γ) (r : Record β)
    (dd : ProcArg β γ) (hd : decodeOf parse r = none)
    (hld : s.lastDecoded = some dd) :
    stepRecord parse proc (some hk) s r = { s with
      idx := s.idx + 1
      outRecords := s.outRecords ++ [markFailed r]
      errorCount := s.errorCount + 1
      hookCalls := s.hookCalls ++
        [HookCall.mk s.idx dd r s.prev (hk dd r s.prev)] } := by
  rw [stepRecord_decodeFail parse proc (some hk) s r hd, hld]

theorem stepRecord_err_hook (parse : String → Option γ) (proc : Proc α β γ)
    (hk : Hook α β γ) (s : LoopState α β γ) (r : Record β) (d : ProcArg β γ)
    (e : Unit) (hd : decodeOf parse r = some d)
    (hv : proc d (ProcArg.record r) s.prev = Except.error e) :
    stepRecord parse proc (some hk) s r = { s with
      idx := s.idx + 1
      outRecords := s.outRecords ++ [markFailed r]
      errorCount := s.errorCount + 1
      lastDecoded := some d
      procCalls := s.procCalls ++
        [ProcCall.mk s.idx d (ProcArg.record r) s.prev (Except.error e)]
      hookCalls := s.hookCalls ++
        [HookCall.mk s.idx d r s.prev (hk d r s.prev)] } := by
  rw [stepRecord_err parse proc (some hk) s r d e hd hv]

theorem filter_idx_nil (hcs : List (HookCall α β γ)) (n m : Nat)
    (hb : ∀ hc ∈ hcs, hc.idx < n) (hnm : n ≤ m) :
    hcs.filter (fun hc => hc.idx == m) = [] := by
  rw [List.filter_eq_nil_iff]
  intro hc hm
  have := hb hc hm
  simp only [beq_iff_eq]
  omega

theorem filter_single_idx (hc : HookCall α β γ) (m : Nat)
    (hne : ¬ hc.idx = m) :
    List.filter (fun x => x.idx == m) [hc] = [] := by
  simp [beq_iff_eq, hne]

theorem runRecords_hook_proc (parse : String → Option γ) (proc : Proc α β γ)
    (h : Hook α β γ) (l : List (Record β)) :
    ∀ s : LoopState α β γ,
    (∀ pc ∈ s.procCalls, pc.idx < s.idx) →
    (∀ hc ∈ s.hookCalls, hc.idx < s.idx) →
    (∀ pc ∈ s.procCalls, (∃ e, pc.output = Except.error e) →
      ∃ r, pc.rawArg = ProcArg.record r ∧
        s.hookCalls.filter (fun hc => hc.idx == pc.idx) =
          [HookCall.mk pc.idx pc.arg r pc.prev (h pc.arg r pc.prev)]) →
    ∀ pc ∈ (runRecords parse proc (some h) s l).procCalls,
      (∃ e, pc.output = Except.error e) →
      ∃ r, pc.rawArg = ProcArg.record r ∧
        (runRecords parse proc (some h) s l).hookCalls.filter
          (fun hc => hc.idx == pc.idx) =
          [HookCall.mk pc.idx pc.arg r pc.prev (h pc.arg r pc.prev)] := by
  induction l with
  | nil => intro s h1 h2 h3; exact h3
  | cons r rest ih =>
      intro s h1 h2 h3
      rw [runRecords_cons]
      cases hd : decodeOf parse r with
      | none =>
          rcases hld : s.lastDecoded with _ | dd
          · have hstep := stepRecord_decodeFail_hnone parse proc h s r hd hld
            apply ih
            · intro pc hm
              rw [hstep] at hm ⊢
              exact Nat.lt_succ_of_lt (h1 pc hm)
            · intro hc hm
              rw [hstep] at hm ⊢
              exact Nat.lt_succ_of_lt (h2 hc hm)
            · intro pc hm he
              rw [hstep] at hm ⊢
              exact h3 pc hm he
          · have hstep := stepRecord_decodeFail_hsome parse proc h s r dd hd hld
            apply ih
            · intro pc hm
              rw [hstep] at hm ⊢
              exact Nat.lt_succ_of_lt (h1 pc hm)
            · intro hc hm
              rw [hstep] at hm ⊢
              rcases List.mem_append.mp hm with hin | hin
              · exact Nat.lt_succ_of_lt (h2 hc hin)
              · rw [List.mem_singleton.mp hin]
                exact Nat.lt_succ_self _
            · intro pc hm he
              rw [hstep] at hm ⊢
              obtain ⟨r2, hraw, hfil⟩ := h3 pc hm he
              refine ⟨r2, hraw, ?_⟩
              show (s.hookCalls ++
                [HookCall.mk s.idx dd r s.prev (h dd r s.prev)]).filter
                  (fun hc => hc.idx == pc.idx) = _
              rw [List.filter_append, hfil,
                filter_single_idx _ _ (Nat.ne_of_gt (h1 pc hm))]
              simp
      | some d =>
          cases hv : proc d (ProcArg.record r) s.prev with
          | ok v =>
              have hstep := stepRecord_ok parse proc (some h) s r d v hd hv
              apply ih
              · intro pc hm
                rw [hstep] at hm ⊢
                rcases List.mem_append.mp hm with hin | hin
                · exact Nat.lt_succ_of_lt (h1 pc hin)
                · rw [List.mem_singleton.mp hin]
                  exact Nat.lt_succ_self _
              · intro hc hm
                rw [hstep] at hm ⊢
                exact Nat.lt_succ_of_lt (h2 hc hm)
              · intro pc hm he
                rw [hstep] at hm ⊢
                rcases List.mem_append.mp hm with hin | hin
                · exact h3 pc hin he
                · rw [List.mem_singleton.mp hin] at he
                  obtain ⟨e2, hee⟩ := he
                  exact absurd hee (by simp)
          | error e =>
              have hstep := stepRecord_err_hook parse proc h s r d e hd hv
              apply ih
              · intro pc hm
                rw [hstep] at hm ⊢
                rcases List.mem_append.mp hm with hin | hin
                · exact Nat.lt_succ_of_lt (h1 pc hin)
                · rw [List.mem_singleton.mp hin]
                  exact Nat.lt_succ_self _
              · intro hc hm
                rw [hstep] at hm ⊢
                rcases List.mem_append.mp hm with hin | hin
                · exact Nat.lt_succ_of_lt (h2 hc hin)
                · rw [List.mem_singleton.mp hin]
                  exact Nat.lt_succ_self _
              · intro pc hm he
                rw [hstep] at hm ⊢
                rcases List.mem_append.mp hm with hin | hin
                · obtain ⟨r2, hraw, hfil⟩ := h3 pc hin he
                  refine ⟨r2, hraw, ?_⟩
                  show (s.hookCalls ++
                    [HookCall.mk s.idx d r s.prev (h d r s.prev)]).filter
                      (fun hc => hc.idx == pc.idx) = _
                  rw [List.filter_append, hfil,
                    filter_single_idx _ _ (Nat.ne_of_gt (h1 pc hin))]
                  simp
                · rw [List.mem_singleton.mp hin]
                  refine ⟨r, rfl, ?_⟩
                  show (s.hookCalls ++
                    [HookCall.mk s.idx d r s.prev (h d r s.prev)]).filter
                      (fun hc => hc.idx == (ProcCall.mk s.idx d
                        (ProcArg.record r) s.prev (Except.error e)).idx) = _
                  rw [List.filter_append,
                    filter_idx_nil s.hookCalls s.idx s.idx h2 (Nat.le_refl _)]
                  simp

theorem filter_idx_nil_ge (hcs : List (HookCall α β γ)) (n m : Nat)
    (hb : ∀ hc ∈ hcs, n ≤ hc.idx) (hmn : m < n) :
    hcs.filter (fun hc => hc.idx == m) = [] := by
  rw [List.filter_eq_nil_iff]
  intro hc hm
  have := hb hc hm
  simp only [beq_iff_eq]
  omega

theorem runRecords_hook_decodeFail (parse : String → Option γ)
    (proc : Proc α β γ) (h : Hook α β γ) (l : List (Record β)) :
    ∀ s : LoopState α β γ,
    (∀ hc ∈ s.hookCalls, hc.idx < s.idx) →
    ∀ i (hi : i < l.length), decodeOf parse l[i] = none →
      ((runRecords parse proc (some h) s l).hookCalls.filter
        (fun hc => hc.idx == s.idx + i)).map
          (fun hc => (hc.arg, hc.rawRecord)) =
      (((l.take i).filterMap (decodeOf parse)).foldl
        (fun _ dd => some dd) s.lastDecoded).toList.map
          (fun dd => (dd, l[i])) := by
  induction l with
  | nil => intro s h2 i hi; exact absurd hi (by simp)
  | cons r rest ih =>
      intro s h2 i hi hdec
      rw [runRecords_cons]
      obtain ⟨new, hnew, hb⟩ := runRecords_hookCalls_extend parse proc
        (some h) rest (stepRecord parse proc (some h) s r)
      have hb2 : ∀ hc ∈ new, s.idx + 1 ≤ hc.idx := by
        intro hc hm
        have := hb hc hm
        rwa [stepRecord_idx parse proc (some h) s r] at this
      cases i with
      | zero =>
          have hd0 : decodeOf parse r = none := by simpa using hdec
          rcases hld : s.lastDecoded with _ | dd
          · have hstep := stepRecord_decodeFail_hnone parse proc h s r hd0 hld
            have hcalls : (runRecords parse proc (some h)
                (stepRecord parse proc (some h) s r) rest).hookCalls =
                s.hookCalls ++ new := by rw [hnew, hstep]
            rw [hcalls, List.filter_append,
              filter_idx_nil s.hookCalls s.idx (s.idx + 0) h2 (by omega),
              filter_idx_nil_ge new (s.idx + 1) (s.idx + 0) hb2 (by omega)]
            simp
          · have hstep := stepRecord_decodeFail_hsome parse proc h s r dd hd0 hld
            have hcalls : (runRecords parse proc (some h)
                (stepRecord parse proc (some h) s r) rest).hookCalls =
                (s.hookCalls ++
                  [HookCall.mk s.idx dd r s.prev (h dd r s.prev)]) ++ new := by
              rw [hnew, hstep]
            rw [hcalls, List.filter_append, List.filter_append,
              filter_idx_nil s.hookCalls s.idx (s.idx + 0) h2 (by omega),
              filter_idx_nil_ge new (s.idx + 1) (s.idx + 0) hb2 (by omega)]
            simp
      | succ j =>
          have hj : j < rest.length := by
            simp only [List.length_cons] at hi
            omega
          have hdec2 : decodeOf parse rest[j] = none := by simpa using hdec
          have hidx2 := stepRecord_idx parse proc (some h) s r
          cases hd : decodeOf parse r with
          | none =>
              rcases hld : s.lastDecoded with _ | dd
              · have hstep := stepRecord_decodeFail_hnone parse proc h s r hd hld
                have hld2 : (stepRecord parse proc (some h) s r).lastDecoded =
                    none := by rw [hstep]; exact hld
                have hbound : ∀ hc ∈ (stepRecord parse proc (some h) s r).hookCalls,
                    hc.idx < (stepRecord parse proc (some h) s r).idx := by
                  intro hc hm
                  have hm2 : hc ∈ s.hookCalls := by rw [hstep] at hm; exact hm
                  rw [hidx2]
                  exact Nat.lt_succ_of_lt (h2 hc hm2)
                have H := ih (stepRecord parse proc (some h) s r) hbound j hj hdec2
                simp only [hidx2, hld2] at H
                simp only [(by omega : s.idx + 1 + j = s.idx + (j + 1))] at H
                simp only [List.take_succ_cons, List.filterMap_cons, hd,
                  List.getElem_cons_succ]
                exact H
              · have hstep := stepRecord_decodeFail_hsome parse proc h s r dd hd hld
                have hld2 : (stepRecord parse proc (some h) s r).lastDecoded =
                    some dd := by rw [hstep]; exact hld
                have hbound : ∀ hc ∈ (stepRecord parse proc (some h) s r).hookCalls,
                    hc.idx < (stepRecord parse proc (some h) s r).idx := by
                  intro hc hm
                  have hm2 : hc ∈ s.hookCalls ++
                      [HookCall.mk s.idx dd r s.prev (h dd r s.prev)] := by
                    rw [hstep] at hm; exact hm
                  rw [hidx2]
                  rcases List.mem_append.mp hm2 with hin | hin
                  · exact Nat.lt_succ_of_lt (h2 hc hin)
                  · rw [List.mem_singleton.mp hin]
                    exact Nat.lt_succ_self _
                have H := ih (stepRecord parse proc (some h) s r) hbound j hj hdec2
                simp only [hidx2, hld2] at H
                simp only [(by omega : s.idx + 1 + j = s.idx + (j + 1))] at H
                simp only [List.take_succ_cons, List.filterMap_cons, hd,
                  List.getElem_cons_succ]
                exact H
          | some d =>
              cases hv : proc d (ProcArg.record r) s.prev with
              | ok v =>
                  have hstep := stepRecord_ok parse proc (some h) s r d v hd hv
                  have hld2 : (stepRecord parse proc (some h) s r).lastDecoded =
                      some d := by rw [hstep]
                  have hbound : ∀ hc ∈ (stepRecord parse proc (some h) s r).hookCalls,
                      hc.idx < (stepRecord parse proc (some h) s r).idx := by
                    intro hc hm
                    have hm2 : hc ∈ s.hookCalls := by rw [hstep] at hm; exact hm
                    rw [hidx2]
                    exact Nat.lt_succ_of_lt (h2 hc hm2)
                  have H := ih (stepRecord parse proc (some h) s r) hbound j hj hdec2
                  simp only [hidx2, hld2] at H
                  simp only [(by omega : s.idx + 1 + j = s.idx + (j + 1))] at H
                  simp only [List.take_succ_cons, List.filterMap_cons, hd,
                    List.foldl_cons, List.getElem_cons_succ]
                  exact H
              | error e =>
                  have hstep := stepRecord_err_hook parse proc h s r d e hd hv
                  have hld2 : (stepRecord parse proc (some h) s r).lastDecoded =
                      some d := by rw [hstep]
                  have hbound : ∀ hc ∈ (stepRecord parse proc (some h) s r).hookCalls,
                      hc.idx < (stepRecord parse proc (some h) s r).idx := by
                    intro hc hm
                    have hm2 : hc ∈ s.hookCalls ++
                        [HookCall.mk s.idx d r s.prev (h d r s.prev)] := by
                      rw [hstep] at hm; exact hm
                    rw [hidx2]
                    rcases List.mem_append.mp hm2 with hin | hin
                    · exact Nat.lt_succ_of_lt (h2 hc hin)
                    · rw [List.mem_singleton.mp hin]
                      exact Nat.lt_succ_self _
                  have H := ih (stepRecord parse proc (some h) s r) hbound j hj hdec2
                  simp only [hidx2, hld2] at H
                  simp only [(by omega : s.idx + 1 + j = s.idx + (j + 1))] at H
                  simp only [List.take_succ_cons, List.filterMap_cons, hd,
                    List.foldl_cons, List.getElem_cons_succ]
                  exact H

/-- C6 — counterexample to the claim as stated.  For a single queue-sourced
record whose body fails to decode, with a hook registered, the record is
marked failed and the batch failure is raised, yet the hook is never
invoked: the Python local `decoded_event` was never assigned, so the hook
call inside the inner try/except dies on an `UnboundLocalError` that is
caught and discarded.  The claim demands a hook invocation with that
record's decoded body for failures "of any kind, including a failure raised
while decoding". -/
theorem claim_C6_counterexample :
    Fix.outC6a.hookCalls = [] ∧
    Fix.outC6a.records = [markFailed Fix.badRec] ∧
    Fix.outC6a.result = Except.error InvokeError.batchFailure := by
  refine ⟨by decide, by decide, by decide⟩

/-- C6 (amended): with a registered hook, every record whose PROCESSOR call
fails produces exactly one hook invocation carrying that record's decoded
body, the raw record and the accumulated prior results.  A record failing
during body DECODING does not: the hook call references the stale Python
local `decoded_event`, so the hook invocations recorded for such a record
carry the most recent successfully decoded body of an EARLIER record
(`staleDecoded` of the preceding prefix) — and when no earlier record ever
decoded, no hook invocation happens at all (the unbound-variable error is
swallowed). -/
theorem claim_C6 (parse : String → Option γ) (proc : Proc α β γ)
    (h : Hook α β γ) (lookup : String → String → Option String)
    (records : List (Record β)) (c : UrlCache) :
    (∀ pc ∈ (invoke parse proc (some h) lookup
        (Event.batch records) c).procCalls,
      (∃ e, pc.output = Except.error e) →
      ∃ r, pc.rawArg = ProcArg.record r ∧
        (invoke parse proc (some h) lookup
            (Event.batch records) c).hookCalls.filter
          (fun hc => hc.idx == pc.idx) =
          [HookCall.mk pc.idx pc.arg r pc.prev (h pc.arg r pc.prev)]) ∧
    (∀ i (hi : i < records.length), decodeOf parse records[i] = none →
      ((invoke parse proc (some h) lookup
          (Event.batch records) c).hookCalls.filter
        (fun hc => hc.idx == i)).map (fun hc => (hc.arg, hc.rawRecord)) =
      (staleDecoded parse (records.take i)).toList.map
        (fun dd => (dd, records[i]))) := by
  rw [invoke_batch_procCalls, invoke_batch_hookCalls]
  constructor
  · exact runRecords_hook_proc parse proc h records initState
      (by intro pc hm; simp [initState] at hm)
      (by intro hc hm; simp [initState] at hm)
      (by intro pc hm; simp [initState] at hm)
  · intro i hi hdec
    have H := runRecords_hook_decodeFail parse proc h records initState
      (by intro hc hm; simp [initState] at hm) i hi hdec
    have e1 : (initState : LoopState α β γ).idx + i = i := by
      simp [initState]
    simp only [e1] at H
    have e2 : (initState : LoopState α β γ).lastDecoded =
        (none : Option (ProcArg β γ)) := rfl
    rw [e2] at H
    exact H

/-- Witness for C6 at the three-record fixture `[rec0, rec1, badRec]`:
`rec1`'s processor failure yields exactly one hook call with `rec1`'s own
decoded body, while `badRec`'s decode failure yields a hook call carrying
the STALE decoded body of `rec1`, not `badRec`'s own. -/
theorem claim_C6_witness :
    (ProcCall.mk 1 (ProcArg.json 7) (ProcArg.record Fix.rec1) [3]
      (Except.error ()) ∈ Fix.outC6.procCalls) ∧
    (∃ r, (ProcCall.mk 1 (ProcArg.json 7) (ProcArg.record Fix.rec1) [3]
        (Except.error ())).rawArg = ProcArg.record r ∧
      Fix.outC6.hookCalls.filter (fun hc => hc.idx == 1) =
        [HookCall.mk 1 (ProcArg.json 7) r [3]
          (Fix.hookW (ProcArg.json 7) r [3])]) ∧
    ((Fix.outC6.hookCalls.filter (fun hc => hc.idx == 2)).map
      (fun hc => (hc.arg, hc.rawRecord)) =
      (staleDecoded Fix.parseW
        ([Fix.rec0, Fix.rec1, Fix.badRec].take 2)).toList.map
        (fun dd => (dd, Fix.badRec))) :=
  ⟨by decide,
   (claim_C6 Fix.parseW Fix.procFail1 Fix.hookW Fix.lookupW
      [Fix.rec0, Fix.rec1, Fix.badRec] Fix.cache0).1
     (ProcCall.mk 1 (ProcArg.json 7) (ProcArg.record Fix.rec1) [3]
       (Except.error ())) (by decide) ⟨(), rfl⟩,
   (claim_C6 Fix.parseW Fix.procFail1 Fix.hookW Fix.lookupW
      [Fix.rec0, Fix.rec1, Fix.badRec] Fix.cache0).2 2 (by decide) (by decide)⟩
